import Mathlib

/-!
Verification of the short-time Fourier transform engine of `kaldi-enhan`
(`include/stft.h`, `include/stft.cc`).

The C++ code is embedded shallowly:

* `Matrix<BaseFloat>` becomes `List (List ℝ)` (rows of reals); `BaseFloat`
  arithmetic is modelled by real arithmetic.
* The split-radix real FFT (`SplitRadixRealFft::Compute`) is modelled by an
  explicit discrete Fourier transform over ℂ, packed into the documented
  layout `[r0, r(n/2), r1, i1, ..., r(n/2-1), i(n/2-1)]`; the inverse call
  is the unnormalised inverse DFT of the unpacked (conjugate-symmetric)
  spectrum, matching Kaldi's convention that inverse∘forward multiplies
  by the transform size.
* Kaldi's `KALDI_ERR` / `KALDI_ASSERT` fatal aborts are modelled by
  `Option`-valued functions: `none` is a fatal error.
* `ApplyPow(0.5)` is modelled by `Real.sqrt` (the entries it is applied to
  are sums of squares, hence nonnegative), `atan2(y, x)` by the principal
  argument `Complex.arg ⟨x, y⟩`, and machine epsilon of `BaseFloat = float`
  by the constant `2⁻²³`.
-/

namespace KaldiEnhan

open scoped BigOperators

/-- `std::numeric_limits<int16>::max()` as a real, from `stft.h`. -/
def int16_max : ℝ := 32767

/-- Machine epsilon of `BaseFloat` (single-precision float), the flooring
constant used before `ApplyLog` in `ComputeSpectrogram`. -/
noncomputable def epsilonF : ℝ := 1 / 2 ^ 23

/-- The constant `M_2PI` used by `CacheWindow`. -/
noncomputable def M_2PI : ℝ := 2 * Real.pi

/-- Kaldi's `RoundUpToNearestPowerOfTwo`: the least power of two that is
`≥ n` (for `n ≥ 1`). -/
def RoundUpToNearestPowerOfTwo (n : ℕ) : ℕ := 2 ^ Nat.clog 2 n

/-- `ShortTimeFTOptions` from `stft.h`.  `frame_shift` and `frame_length`
are stored as `BaseFloat` in the C++ but are only ever used as sample
counts; they are modelled as `ℕ`. -/
structure ShortTimeFTOptions where
  frame_shift : ℕ
  frame_length : ℕ
  window : String
  normalize_input : Bool
  enable_scale : Bool
  apply_pow : Bool
  apply_log : Bool

/-- `ShortTimeFTOptions::PaddingLength`. -/
def PaddingLength (opts : ShortTimeFTOptions) : ℕ :=
  RoundUpToNearestPowerOfTwo opts.frame_length

/-- `ShortTimeFTComputer::NumFrames`: `(num_samples - frame_length) /
frame_shift + 1`.  Faithful to the C++ for `num_samples ≥ frame_length`
(the regime in which it is called); the C++ arithmetic is an `int32` cast
of a float quotient, which agrees with natural truncated division there. -/
def NumFrames (opts : ShortTimeFTOptions) (num_samples : ℕ) : ℕ :=
  (num_samples - opts.frame_length) / opts.frame_shift + 1

/-- `ShortTimeFTComputer::NumSamples`: `(num_frames - 1) * frame_shift +
frame_length`. -/
def NumSamples (opts : ShortTimeFTOptions) (num_frames : ℕ) : ℕ :=
  (num_frames - 1) * opts.frame_shift + opts.frame_length

/-- The window sample at index `i` computed by one iteration of the
`CacheWindow` loop; `none` models the `KALDI_ERR` abort on an unknown
window name.  The branch order follows the source. -/
noncomputable def windowSample (opts : ShortTimeFTOptions) (i : ℕ) : Option ℝ :=
  let a : ℝ := M_2PI / ((opts.frame_length : ℝ) - 1)
  let d : ℝ := (i : ℝ)
  if opts.window = "blackman" then
    some (0.42 - 0.5 * Real.cos (a * d) + 0.08 * Real.cos (2 * a * d))
  else if opts.window = "hamming" then
    some (0.54 - 0.46 * Real.cos (a * d))
  else if opts.window = "hanning" then
    some (0.50 - 0.50 * Real.cos (a * d))
  else if opts.window = "rectangular" then
    some 1.0
  else
    none

/-- The `CacheWindow` loop over a list of indices: stops with `none`
(the `KALDI_ERR` abort) as soon as one index meets an unknown window
name. -/
noncomputable def cacheWindowLoop (opts : ShortTimeFTOptions) : List ℕ → Option (List ℝ)
  | [] => some []
  | i :: rest =>
      match windowSample opts i, cacheWindowLoop opts rest with
      | some w, some ws => some (w :: ws)
      | _, _ => none

/-- `ShortTimeFTComputer::CacheWindow`: fills a window of `frame_length`
samples; the loop aborts (`none`) on an unknown window name — in
particular the loop body never runs when `frame_length = 0`. -/
noncomputable def CacheWindow (opts : ShortTimeFTOptions) : Option (List ℝ) :=
  cacheWindowLoop opts (List.range opts.frame_length)

/-- Number of columns of a matrix modelled as a list of rows. -/
def numCols (m : List (List ℝ)) : ℕ := (m.headD []).length

/-- `VectorBase::Norm(float_inf)`: the max of the absolute values of the
entries (`0` for the empty vector). -/
noncomputable def infNorm (l : List ℝ) : ℝ := (l.map (fun x => |x|)).foldr max 0

/-! ### The split-radix real FFT, modelled as a packed DFT -/

/-- `e^{2πi·d/n}`, the elementary phase factor of an order-`n` transform. -/
noncomputable def expUnit (n : ℕ) (d : ℤ) : ℂ :=
  Complex.exp (2 * Real.pi * Complex.I * d / n)

/-- Forward DFT of the length-`n` sequence `x`:
`X k = ∑_{j<n} x j · e^{-2πi·kj/n}`. -/
noncomputable def dftC (n : ℕ) (x : ℕ → ℂ) (k : ℕ) : ℂ :=
  ∑ j ∈ Finset.range n, x j * expUnit n (-((k : ℤ) * j))

/-- Unnormalised inverse DFT: `x j = ∑_{k<n} X k · e^{2πi·kj/n}` (Kaldi's
inverse real FFT omits the `1/n` factor; callers rescale themselves). -/
noncomputable def idftC (n : ℕ) (X : ℕ → ℂ) (j : ℕ) : ℂ :=
  ∑ k ∈ Finset.range n, X k * expUnit n ((k : ℤ) * j)

/-- The DFT of the real vector `v` (entries past the end read as `0`). -/
noncomputable def rdft (v : List ℝ) (k : ℕ) : ℂ :=
  dftC v.length (fun j => ((v.getD j 0 : ℝ) : ℂ)) k

/-- `SplitRadixRealFft::Compute(·, true)`: the packed forward real FFT.
Slot `0` holds `Re X₀`, slot `1` holds `Re X_{n/2}` (the Nyquist bin),
and slots `2f, 2f+1` hold `Re X_f, Im X_f` for `1 ≤ f < n/2`. -/
noncomputable def srfftForward (v : List ℝ) : List ℝ :=
  let n := v.length
  (List.range n).map (fun s =>
    if s = 0 then (rdft v 0).re
    else if s = 1 then (rdft v (n / 2)).re
    else if s % 2 = 0 then (rdft v (s / 2)).re
    else (rdft v (s / 2)).im)

/-- Unpack a packed spectrum `p` of length `n` into the full
conjugate-symmetric spectrum it represents. -/
noncomputable def unpack (p : List ℝ) (k : ℕ) : ℂ :=
  let n := p.length
  if k = 0 then ((p.getD 0 0 : ℝ) : ℂ)
  else if k = n / 2 then ((p.getD 1 0 : ℝ) : ℂ)
  else if k < n / 2 then ⟨p.getD (2 * k) 0, p.getD (2 * k + 1) 0⟩
  else (starRingEnd ℂ) ⟨p.getD (2 * (n - k)) 0, p.getD (2 * (n - k) + 1) 0⟩

/-- `SplitRadixRealFft::Compute(·, false)`: the unnormalised inverse of
the packed forward transform. -/
noncomputable def srfftInverse (p : List ℝ) : List ℝ :=
  (List.range p.length).map (fun j => (idftC p.length (unpack p) j).re)

/-- `SplitRadixRealFft::Compute` with its `forward` flag. -/
noncomputable def srfftCompute (forward : Bool) (v : List ℝ) : List ℝ :=
  if forward then srfftForward v else srfftInverse v

/-! ### `ShortTimeFTComputer::ShortTimeFT` -/

/-- The per-channel scaling `ShortTimeFT` performs on its private copy of
the wave: `copy_mat.Scale(1.0 / int16_max)` under `normalize_input`, then
`samples.Scale(int16_max / samples.Norm(float_inf))` under
`enable_scale`. -/
noncomputable def scaledChannel (opts : ShortTimeFTOptions) (ch : List ℝ) : List ℝ :=
  let ch1 := if opts.normalize_input then ch.map (fun x => x * (1 / int16_max)) else ch
  if opts.enable_scale then ch1.map (fun x => x * (int16_max / infNorm ch1)) else ch1

/-- One row of the STFT output: the row starts as `PaddingLength` zeros
(`Resize(..., kSetZero)`), samples `[ibeg, iend)` of the channel are
copied in (with `iend` clipped to `num_samples`), the first
`frame_length` entries are multiplied by the window, and the row is
transformed in place by the forward real FFT. -/
noncomputable def frameRow (opts : ShortTimeFTOptions) (window : List ℝ)
    (samples : List ℝ) (i : ℕ) : List ℝ :=
  let ibeg := i * opts.frame_shift
  let iend := min (ibeg + opts.frame_length) samples.length
  let copied := (List.range (PaddingLength opts)).map
    (fun j => if ibeg + j < iend then samples.getD (ibeg + j) 0 else 0)
  let windowed := (List.range (PaddingLength opts)).map
    (fun j => if j < opts.frame_length then copied.getD j 0 * window.getD j 0
              else copied.getD j 0)
  srfftCompute true windowed

/-- The body of `ShortTimeFT` after its assertion: channel-major stacking
of the per-frame spectra (row `c * num_frames + i` is frame `i` of
channel `c`). -/
noncomputable def shortTimeFTCore (opts : ShortTimeFTOptions) (window : List ℝ)
    (wave : List (List ℝ)) : List (List ℝ) :=
  let num_frames := NumFrames opts (numCols wave)
  (List.range wave.length).flatMap (fun c =>
    (List.range num_frames).map (fun i =>
      frameRow opts window (scaledChannel opts (wave.getD c [])) i))

/-- `ShortTimeFTComputer::ShortTimeFT`.  The leading
`KALDI_ASSERT(window_.Dim() == frame_length_)` is modelled by the guard;
`none` is the fatal assertion failure. -/
noncomputable def ShortTimeFT (opts : ShortTimeFTOptions) (window : List ℝ)
    (wave : List (List ℝ)) : Option (List (List ℝ)) :=
  if window.length = opts.frame_length then some (shortTimeFTCore opts window wave)
  else none

/-- `ShortTimeFT` with the caller's `wave` buffer threaded through
explicitly: the source takes `wave` by const reference and copies it
(`Matrix<BaseFloat> copy_mat(wave)`) before any scaling, so the buffer
the caller passed is returned untouched as the second component. -/
noncomputable def shortTimeFTProc (opts : ShortTimeFTOptions) (window : List ℝ)
    (wave : List (List ℝ)) : Option (List (List ℝ)) × List (List ℝ) :=
  let copy_mat := wave
  (ShortTimeFT opts window copy_mat, wave)

/-! ### Spectrogram, phase, and polar reconstruction -/

/-- The raw power matrix written by the loop in `ComputeSpectrogram`:
`num_bins = window_size / 2 + 1` with `window_size = stft.NumCols()`;
bin `0` squares packed slot `0`, the Nyquist bin squares packed slot `1`,
interior bin `f` is `r² + i²` from slots `2f, 2f+1`.  The
`num_bins - 1` branch is tested first because the source writes that slot
after slot `0` (they only coincide in the degenerate one-bin case). -/
noncomputable def spectrogramRaw (stft : List (List ℝ)) : List (List ℝ) :=
  let num_bins := numCols stft / 2 + 1
  stft.map (fun row =>
    (List.range num_bins).map (fun f =>
      if f = num_bins - 1 then row.getD 1 0 ^ 2
      else if f = 0 then row.getD 0 0 ^ 2
      else row.getD (2 * f) 0 ^ 2 + row.getD (2 * f + 1) 0 ^ 2))

/-- The spectrogram before the optional log step: square root of every
entry (`ApplyPow(0.5)`) unless `apply_pow` keeps the power spectrum. -/
noncomputable def spectrogramPre (opts : ShortTimeFTOptions)
    (stft : List (List ℝ)) : List (List ℝ) :=
  if opts.apply_pow then spectrogramRaw stft
  else (spectrogramRaw stft).map (List.map Real.sqrt)

/-- `ShortTimeFTComputer::ComputeSpectrogram`: if `apply_log`, every
entry is floored by machine epsilon (`ApplyFloor`) and replaced by its
natural log (`ApplyLog`). -/
noncomputable def ComputeSpectrogram (opts : ShortTimeFTOptions)
    (stft : List (List ℝ)) : List (List ℝ) :=
  if opts.apply_log then
    (spectrogramPre opts stft).map (List.map (fun x => Real.log (max x epsilonF)))
  else spectrogramPre opts stft

/-- C's `atan2(y, x)`, modelled by the principal argument of `x + y·i`
(both take values in `(-π, π]` and agree off the signed-zero cases that
reals cannot express). -/
noncomputable def atan2 (y x : ℝ) : ℝ := Complex.arg ⟨x, y⟩

/-- `ShortTimeFTComputer::ComputePhaseAngle`: per bin the two-argument
arctangent of `(imag, real)`; bins `0` and Nyquist use `imag = 0` with
their stored real components (packed slots `0` and `1`). -/
noncomputable def ComputePhaseAngle (stft : List (List ℝ)) : List (List ℝ) :=
  let num_bins := numCols stft / 2 + 1
  stft.map (fun row =>
    (List.range num_bins).map (fun f =>
      if f = num_bins - 1 then atan2 0 (row.getD 1 0)
      else if f = 0 then atan2 0 (row.getD 0 0)
      else atan2 (row.getD (2 * f + 1) 0) (row.getD (2 * f) 0)))

/-- The in-place mutation `Polar` performs on its `spectra` argument
before the reconstruction loop: `ApplyExp` under `apply_log`, then
`ApplyPow(0.5)` under `apply_pow`. -/
noncomputable def polarSpectra (opts : ShortTimeFTOptions)
    (spectra : List (List ℝ)) : List (List ℝ) :=
  let s1 := if opts.apply_log then spectra.map (List.map Real.exp) else spectra
  if opts.apply_pow then s1.map (List.map Real.sqrt) else s1

/-- `ShortTimeFTComputer::Polar`, returning the reconstructed buffer
together with the (mutated, `Polar` takes it by non-const reference)
`spectra` argument.  `num_bins = spectra.NumCols()`,
`window_size = (num_bins - 1) * 2`; packed slot `0` gets the bin-0
magnitude, slot `1` gets the negated Nyquist magnitude, and slots
`2f, 2f+1` get `cos θ · mag, sin θ · mag`. -/
noncomputable def polarProc (opts : ShortTimeFTOptions)
    (spectra angle : List (List ℝ)) : List (List ℝ) × List (List ℝ) :=
  let num_bins := numCols spectra
  let window_size := (num_bins - 1) * 2
  let sp := polarSpectra opts spectra
  ((List.range spectra.length).map (fun t =>
    (List.range window_size).map (fun s =>
      if s = 0 then (sp.getD t []).getD 0 0
      else if s = 1 then -((sp.getD t []).getD (num_bins - 1) 0)
      else if s % 2 = 0 then
        Real.cos ((angle.getD t []).getD (s / 2) 0) * (sp.getD t []).getD (s / 2) 0
      else
        Real.sin ((angle.getD t []).getD (s / 2) 0) * (sp.getD t []).getD (s / 2) 0)),
   sp)

/-- The reconstructed buffer written into `Polar`'s `stft` output. -/
noncomputable def Polar (opts : ShortTimeFTOptions)
    (spectra angle : List (List ℝ)) : List (List ℝ) :=
  (polarProc opts spectra angle).1

/-! ### `ShortTimeFTComputer::InverseShortTimeFT` -/

/-- The segment a single frame contributes: inverse real FFT of the
frame's packed row, scaled by `1 / frame_length`, first `frame_length`
entries kept and multiplied elementwise by the window. -/
noncomputable def istftFrame (opts : ShortTimeFTOptions) (window : List ℝ)
    (row : List ℝ) : List ℝ :=
  let s := (srfftCompute false row).map (fun x => x * (1 / (opts.frame_length : ℝ)))
  (List.range opts.frame_length).map (fun j => s.getD j 0 * window.getD j 0)

/-- `samples.Range(offset, seg.length).AddVec(1, seg)`: elementwise
addition of `seg` into `samples` at `offset`. -/
noncomputable def addFrame (samples : List ℝ) (offset : ℕ) (seg : List ℝ) : List ℝ :=
  (List.range samples.length).map (fun n =>
    if offset ≤ n ∧ n < offset + seg.length
    then samples.getD n 0 + seg.getD (n - offset) 0
    else samples.getD n 0)

/-- The overlap-add accumulation loop of `InverseShortTimeFT`: starting
from `NumSamples` zeros, each frame's segment is added in at offset
`i * frame_shift`. -/
noncomputable def olaAccum (opts : ShortTimeFTOptions) (window : List ℝ)
    (stft : List (List ℝ)) : List ℝ :=
  (List.range stft.length).foldl
    (fun acc i => addFrame acc (i * opts.frame_shift)
      (istftFrame opts window (stft.getD i [])))
    (List.replicate (NumSamples opts stft.length) 0)

/-- The final rescaling of `InverseShortTimeFT`: `range = 0` is replaced
by `int16_max`; a nonnegative (replaced) range rescales the samples by
`range / ‖samples‖_∞`; a negative range leaves them untouched. -/
noncomputable def rescale (samples : List ℝ) (range : ℝ) : List ℝ :=
  let samp_norm := infNorm samples
  let r := if range = 0 then int16_max else range
  if 0 ≤ r then samples.map (fun x => x * (r / samp_norm)) else samples

/-- `ShortTimeFTComputer::InverseShortTimeFT`: a single-row waveform of
`NumSamples stft.NumRows()` samples, overlap-added and rescaled. -/
noncomputable def InverseShortTimeFT (opts : ShortTimeFTOptions) (window : List ℝ)
    (stft : List (List ℝ)) (range : ℝ) : List (List ℝ) :=
  [rescale (olaAccum opts window stft) range]

/-! ### Concrete configurations used in the scenario claims -/

/-- The window names accepted by `CacheWindow`, in source branch order. -/
def windowNames : List String := ["blackman", "hamming", "hanning", "rectangular"]

/-- Rectangular window, `frame_length = 4`, `frame_shift = 2`, all flags
off: the configuration of the spec's worked scenario. -/
def rectOpts42 : ShortTimeFTOptions :=
  ⟨2, 4, "rectangular", false, false, false, false⟩

/-- Rectangular window, `frame_shift = frame_length = 4`
(non-overlapping), all flags off. -/
def rectOpts44 : ShortTimeFTOptions :=
  ⟨4, 4, "rectangular", false, false, false, false⟩

/-- `rectOpts44` with `apply_pow` set. -/
def powOpts : ShortTimeFTOptions :=
  ⟨4, 4, "rectangular", false, false, true, false⟩

/-- `rectOpts44` with `apply_log` set. -/
def logOpts : ShortTimeFTOptions :=
  ⟨4, 4, "rectangular", false, false, false, true⟩

/-- An unrecognised window name together with `frame_length = 0`, so the
`CacheWindow` loop body never runs. -/
def gaussOpts : ShortTimeFTOptions :=
  ⟨4, 0, "gaussian", false, false, false, false⟩

/-! ### List and matrix bookkeeping lemmas -/

theorem getD_map_range (f : ℕ → ℝ) {s n : ℕ} (h : s < n) :
    ((List.range n).map f).getD s 0 = f s := by
  rw [List.getD_eq_getElem?_getD, List.getElem?_map, List.getElem?_range h]
  rfl

theorem getD_replicate_zero {n m : ℕ} : (List.replicate n (0 : ℝ)).getD m 0 = 0 := by
  rcases lt_or_le m n with h | h
  · rw [List.getD_eq_getElem?_getD, List.getElem?_replicate]
    simp [h]
  · rw [List.getD_eq_getElem?_getD, List.getElem?_eq_none (by simpa using h)]
    rfl

theorem length_srfftForward (v : List ℝ) : (srfftForward v).length = v.length := by
  simp [srfftForward]

theorem length_srfftInverse (p : List ℝ) : (srfftInverse p).length = p.length := by
  simp [srfftInverse]

theorem length_istftFrame (opts : ShortTimeFTOptions) (window row : List ℝ) :
    (istftFrame opts window row).length = opts.frame_length := by
  simp [istftFrame]

theorem length_addFrame (samples : List ℝ) (offset : ℕ) (seg : List ℝ) :
    (addFrame samples offset seg).length = samples.length := by
  simp [addFrame]

theorem length_foldl_addFrame (g : ℕ → ℕ) (seg : ℕ → List ℝ) (l : List ℕ)
    (init : List ℝ) :
    (l.foldl (fun acc i => addFrame acc (g i) (seg i)) init).length = init.length := by
  induction l generalizing init with
  | nil => rfl
  | cons a t ih => rw [List.foldl_cons, ih, length_addFrame]

theorem length_olaAccum (opts : ShortTimeFTOptions) (window : List ℝ)
    (stft : List (List ℝ)) :
    (olaAccum opts window stft).length = NumSamples opts stft.length := by
  unfold olaAccum
  rw [length_foldl_addFrame (fun i => i * opts.frame_shift)
    (fun i => istftFrame opts window (stft.getD i []))]
  exact List.length_replicate _ _

theorem length_rescale (samples : List ℝ) (range : ℝ) :
    (rescale samples range).length = samples.length := by
  unfold rescale
  split <;> dsimp only <;> split <;> simp

/-! ### Infinity-norm lemmas -/

theorem infNorm_nonneg (l : List ℝ) : 0 ≤ infNorm l := by
  induction l with
  | nil => exact le_refl 0
  | cons a t ih => exact le_trans ih (le_max_right _ _)

theorem infNorm_cons (a : ℝ) (t : List ℝ) : infNorm (a :: t) = max |a| (infNorm t) := rfl

theorem infNorm_map_mul (l : List ℝ) (c : ℝ) :
    infNorm (l.map (fun x => x * c)) = infNorm l * |c| := by
  induction l with
  | nil => simp [infNorm]
  | cons a t ih =>
      rw [List.map_cons, infNorm_cons, infNorm_cons, ih, abs_mul,
        max_mul_of_nonneg _ _ (abs_nonneg c)]

theorem abs_getD_le_infNorm {l : List ℝ} {n : ℕ} (h : n < l.length) :
    |l.getD n 0| ≤ infNorm l := by
  induction l generalizing n with
  | nil => simp at h
  | cons a t ih =>
      cases n with
      | zero => exact le_max_left _ _
      | succ m =>
          refine le_trans (ih (by simpa using h)) (le_max_right _ _)

/-! ### DFT orthogonality and inversion -/

theorem expUnit_zero (n : ℕ) : expUnit n 0 = 1 := by
  simp [expUnit]

theorem expUnit_add (n : ℕ) (a b : ℤ) :
    expUnit n (a + b) = expUnit n a * expUnit n b := by
  rw [expUnit, expUnit, expUnit, ← Complex.exp_add]
  congr 1
  push_cast
  ring

theorem expUnit_pow (n : ℕ) (d : ℤ) (k : ℕ) :
    expUnit n d ^ k = expUnit n (k * d) := by
  rw [expUnit, expUnit, ← Complex.exp_nat_mul]
  congr 1
  push_cast
  ring

theorem expUnit_int_mul {n : ℕ} (hn : n ≠ 0) (m : ℤ) : expUnit n (m * n) = 1 := by
  have hcast : ((n : ℕ) : ℂ) ≠ 0 := Nat.cast_ne_zero.mpr hn
  rw [expUnit]
  have : 2 * (Real.pi : ℂ) * Complex.I * ((m * n : ℤ) : ℂ) / ((n : ℕ) : ℂ) =
      m * (2 * Real.pi * Complex.I) := by
    rw [div_eq_iff hcast]
    push_cast
    ring
  rw [this, Complex.exp_int_mul_two_pi_mul_I]

theorem expUnit_ne_one {n : ℕ} (hn : n ≠ 0) {d : ℤ} (hd : ¬ (n : ℤ) ∣ d) :
    expUnit n d ≠ 1 := by
  intro h
  rw [expUnit, Complex.exp_eq_one_iff] at h
  obtain ⟨t, ht⟩ := h
  apply hd
  refine ⟨t, ?_⟩
  have hcast : ((n : ℕ) : ℂ) ≠ 0 := Nat.cast_ne_zero.mpr hn
  have h2pi : (2 * (Real.pi : ℂ) * Complex.I) ≠ 0 := by
    simp [Real.pi_ne_zero, Complex.I_ne_zero]
  rw [div_eq_iff hcast] at ht
  have ht2 : 2 * (Real.pi : ℂ) * Complex.I * (d : ℂ) =
      2 * (Real.pi : ℂ) * Complex.I * ((t : ℂ) * ((n : ℕ) : ℂ)) := by
    rw [ht]; ring
  have hdc : ((d : ℂ)) = ((t : ℂ)) * ((n : ℕ) : ℂ) := mul_left_cancel₀ h2pi ht2
  have hdc2 : ((d : ℂ)) = ((n : ℕ) : ℂ) * ((t : ℂ)) := by rw [hdc]; ring
  exact_mod_cast hdc2

/-- Orthogonality of the discrete characters: summing `e^{2πi·kd/n}` over
one period gives `n` when `n ∣ d` and `0` otherwise. -/
theorem expUnit_sum_ortho {n : ℕ} (hn : n ≠ 0) (d : ℤ) :
    ∑ k ∈ Finset.range n, expUnit n ((k : ℤ) * d) =
      if (n : ℤ) ∣ d then (n : ℂ) else 0 := by
  by_cases hdvd : (n : ℤ) ∣ d
  · obtain ⟨c, hc⟩ := hdvd
    rw [if_pos ⟨c, hc⟩]
    have hterm : ∀ k ∈ Finset.range n, expUnit n ((k : ℤ) * d) = 1 := by
      intro k _
      have : (k : ℤ) * d = ((k : ℤ) * c) * n := by rw [hc]; ring
      rw [this, expUnit_int_mul hn]
    rw [Finset.sum_congr rfl hterm]
    simp
  · rw [if_neg hdvd]
    have hterm : ∀ k ∈ Finset.range n, expUnit n ((k : ℤ) * d) = expUnit n d ^ k := by
      intro k _
      rw [expUnit_pow]
    rw [Finset.sum_congr rfl hterm, geom_sum_eq (expUnit_ne_one hn hdvd) n]
    have hpow : expUnit n d ^ n = 1 := by
      rw [expUnit_pow]
      have : (n : ℤ) * d = d * n := by ring
      rw [this, expUnit_int_mul hn]
    rw [hpow, sub_self, zero_div]

/-- Fourier inversion: the unnormalised inverse DFT of the DFT multiplies
each in-range sample by `n`. -/
theorem dft_inversion {n : ℕ} (hn : n ≠ 0) (x : ℕ → ℂ) {j : ℕ} (hj : j < n) :
    idftC n (dftC n x) j = n * x j := by
  unfold idftC dftC
  have step1 : ∀ k ∈ Finset.range n,
      (∑ m ∈ Finset.range n, x m * expUnit n (-((k : ℤ) * m))) * expUnit n ((k : ℤ) * j) =
      ∑ m ∈ Finset.range n, x m * expUnit n ((k : ℤ) * ((j : ℤ) - m)) := by
    intro k _
    rw [Finset.sum_mul]
    refine Finset.sum_congr rfl (fun m _ => ?_)
    rw [mul_assoc, ← expUnit_add]
    congr 2
    ring
  rw [Finset.sum_congr rfl step1, Finset.sum_comm]
  have step2 : ∀ m ∈ Finset.range n,
      (∑ k ∈ Finset.range n, x m * expUnit n ((k : ℤ) * ((j : ℤ) - m))) =
      if m = j then (n : ℂ) * x m else 0 := by
    intro m hm
    rw [← Finset.mul_sum, expUnit_sum_ortho hn]
    rcases eq_or_ne m j with h | h
    · subst h
      simp
      ring
    · rw [if_neg h, if_neg, mul_zero]
      intro hdvd
      have hm' : m < n := Finset.mem_range.mp hm
      have hzero : (j : ℤ) - m = 0 :=
        Int.eq_zero_of_dvd_of_natAbs_lt_natAbs hdvd (by omega)
      exact h (by omega)
  rw [Finset.sum_congr rfl step2, Finset.sum_ite_eq' (Finset.range n) j
    (fun m => (n : ℂ) * x m)]
  rw [if_pos (Finset.mem_range.mpr hj)]

theorem expUnit_conj (n : ℕ) (d : ℤ) :
    (starRingEnd ℂ) (expUnit n d) = expUnit n (-d) := by
  rw [expUnit, expUnit, ← Complex.exp_conj]
  congr 1
  simp only [map_div₀, map_mul, Complex.conj_I, Complex.conj_ofReal, map_ofNat,
    map_natCast, map_intCast]
  push_cast
  ring

/-- Conjugate symmetry of the DFT of a real sequence:
`X (n - k) = conj (X k)` for `k ≤ n`. -/
theorem dft_real_conj {n : ℕ} (hn : n ≠ 0) (x : ℕ → ℝ) {k : ℕ} (hk : k ≤ n) :
    dftC n (fun j => ((x j : ℝ) : ℂ)) (n - k) =
      (starRingEnd ℂ) (dftC n (fun j => ((x j : ℝ) : ℂ)) k) := by
  unfold dftC
  rw [map_sum]
  refine Finset.sum_congr rfl (fun m _ => ?_)
  rw [map_mul, Complex.conj_ofReal, expUnit_conj]
  congr 1
  have hcast : (((n - k : ℕ) : ℤ)) = (n : ℤ) - k := by omega
  have harg : -((((n - k : ℕ) : ℤ)) * m) = (k : ℤ) * m + (-(m : ℤ)) * n := by
    rw [hcast]; ring
  rw [harg, expUnit_add, expUnit_int_mul hn, mul_one, neg_neg]

theorem dft_real_im_zero (n : ℕ) (x : ℕ → ℝ) :
    (dftC n (fun j => ((x j : ℝ) : ℂ)) 0).im = 0 := by
  unfold dftC
  rw [Complex.im_sum]
  refine Finset.sum_eq_zero (fun m _ => ?_)
  simp only [Nat.cast_zero, zero_mul, neg_zero, expUnit_zero, mul_one, Complex.ofReal_im]

theorem dft_real_im_half {n : ℕ} (hn : n ≠ 0) (hev : n % 2 = 0) (x : ℕ → ℝ) :
    (dftC n (fun j => ((x j : ℝ) : ℂ)) (n / 2)).im = 0 := by
  have h := dft_real_conj hn x (k := n / 2) (Nat.div_le_self n 2)
  have hhalf : n - n / 2 = n / 2 := by omega
  rw [hhalf] at h
  have := congrArg Complex.im h
  simp only [Complex.conj_im] at this
  linarith

/-! ### Round trip of the packed real FFT -/

theorem srfftForward_getD (v : List ℝ) {s : ℕ} (h : s < v.length) :
    (srfftForward v).getD s 0 =
      if s = 0 then (rdft v 0).re
      else if s = 1 then (rdft v (v.length / 2)).re
      else if s % 2 = 0 then (rdft v (s / 2)).re
      else (rdft v (s / 2)).im := by
  unfold srfftForward
  exact getD_map_range _ h

theorem unpack_srfftForward {v : List ℝ} (hev : v.length % 2 = 0) {k : ℕ}
    (hk : k < v.length) :
    unpack (srfftForward v) k = rdft v k := by
  have hn0 : v.length ≠ 0 := by omega
  unfold unpack
  rw [length_srfftForward]
  by_cases hk0 : k = 0
  · subst hk0
    rw [if_pos rfl, srfftForward_getD v (by omega), if_pos rfl]
    apply Complex.ext
    · rw [Complex.ofReal_re]
    · rw [Complex.ofReal_im]
      exact (dft_real_im_zero v.length (fun j => v.getD j 0)).symm
  · rw [if_neg hk0]
    by_cases hkh : k = v.length / 2
    · rw [if_pos hkh]
      have h1 : 1 < v.length := by omega
      rw [srfftForward_getD v h1, if_neg (by omega), if_pos rfl]
      subst hkh
      apply Complex.ext
      · rw [Complex.ofReal_re]
      · rw [Complex.ofReal_im]
        exact (dft_real_im_half hn0 hev (fun j => v.getD j 0)).symm
    · rw [if_neg hkh]
      by_cases hlt : k < v.length / 2
      · rw [if_pos hlt]
        have hb1 : 2 * k < v.length := by omega
        have hb2 : 2 * k + 1 < v.length := by omega
        rw [srfftForward_getD v hb1, srfftForward_getD v hb2]
        rw [if_neg (by omega), if_neg (by omega), if_pos (by omega)]
        rw [if_neg (by omega), if_neg (by omega), if_neg (by omega)]
        have hdiv : 2 * k / 2 = k := by omega
        have hdiv1 : (2 * k + 1) / 2 = k := by omega
        rw [hdiv, hdiv1]
      · rw [if_neg hlt]
        have hm1 : 1 ≤ v.length - k := by omega
        have hm2 : v.length - k < v.length / 2 := by omega
        have hb1 : 2 * (v.length - k) < v.length := by omega
        have hb2 : 2 * (v.length - k) + 1 < v.length := by omega
        rw [srfftForward_getD v hb1, srfftForward_getD v hb2]
        rw [if_neg (by omega), if_neg (by omega), if_pos (by omega)]
        rw [if_neg (by omega), if_neg (by omega), if_neg (by omega)]
        have hdiv : 2 * (v.length - k) / 2 = v.length - k := by omega
        have hdiv1 : (2 * (v.length - k) + 1) / 2 = v.length - k := by omega
        rw [hdiv, hdiv1]
        have hsym := dft_real_conj hn0 (fun j => v.getD j 0)
          (k := v.length - k) (by omega)
        have hkk : v.length - (v.length - k) = k := by omega
        rw [hkk] at hsym
        exact hsym.symm

/-- The inverse packed real FFT undoes the forward one, up to the factor
`n` of Kaldi's unnormalised inverse transform. -/
theorem srfft_roundtrip {v : List ℝ} (hev : v.length % 2 = 0) :
    srfftInverse (srfftForward v) = v.map (fun x => (v.length : ℝ) * x) := by
  rcases Nat.eq_zero_or_pos v.length with hn | hn
  · rw [List.length_eq_zero] at hn
    subst hn
    rfl
  · have hn0 : v.length ≠ 0 := by omega
    apply List.ext_getElem
    · rw [srfftInverse, List.length_map, List.length_map, List.length_range,
        length_srfftForward]
    · intro j hj hj'
      have hjlen : j < v.length := by
        simpa using hj'
      simp only [srfftInverse, List.getElem_map, List.getElem_range,
        length_srfftForward]
      have hup : ∀ k ∈ Finset.range v.length,
          unpack (srfftForward v) k * expUnit v.length ((k : ℤ) * j) =
          dftC v.length (fun m => ((v.getD m 0 : ℝ) : ℂ)) k *
            expUnit v.length ((k : ℤ) * j) := by
        intro k hkmem
        rw [unpack_srfftForward hev (Finset.mem_range.mp hkmem)]
        rfl
      rw [idftC, Finset.sum_congr rfl hup]
      have hinv := dft_inversion hn0 (fun m => ((v.getD m 0 : ℝ) : ℂ)) hjlen
      rw [idftC] at hinv
      rw [hinv]
      have hre : ((v.length : ℂ) * ((v.getD j 0 : ℝ) : ℂ)).re =
          (v.length : ℝ) * v.getD j 0 := by
        rw [← Complex.ofReal_natCast, ← Complex.ofReal_mul, Complex.ofReal_re]
      rw [hre]
      congr 1
      rw [List.getD_eq_getElem?_getD, List.getElem?_eq_getElem hjlen]
      rfl

/-! ### Overlap-add accumulation in closed form -/

theorem addFrame_getD {samples : List ℝ} {n : ℕ} (h : n < samples.length)
    (offset : ℕ) (seg : List ℝ) :
    (addFrame samples offset seg).getD n 0 =
      if offset ≤ n ∧ n < offset + seg.length
      then samples.getD n 0 + seg.getD (n - offset) 0
      else samples.getD n 0 := by
  unfold addFrame
  exact getD_map_range _ h

theorem foldl_addFrame_getD (g : ℕ → ℕ) (seg : ℕ → List ℝ) (F : ℕ)
    (init : List ℝ) {n : ℕ} (h : n < init.length) :
    ((List.range F).foldl (fun acc i => addFrame acc (g i) (seg i)) init).getD n 0 =
      init.getD n 0 + ∑ i ∈ Finset.range F,
        (if g i ≤ n ∧ n < g i + (seg i).length then (seg i).getD (n - g i) 0 else 0) := by
  induction F with
  | zero => simp
  | succ F ih =>
      rw [List.range_succ, List.foldl_append, List.foldl_cons, List.foldl_nil]
      have hlen : n <
          ((List.range F).foldl (fun acc i => addFrame acc (g i) (seg i)) init).length := by
        rw [length_foldl_addFrame]
        exact h
      rw [addFrame_getD hlen, Finset.sum_range_succ]
      by_cases hc : g F ≤ n ∧ n < g F + (seg F).length
      · rw [if_pos hc, if_pos hc, ih]
        ring
      · rw [if_neg hc, if_neg hc, ih, add_zero]

/-- The value the overlap-add loop of `InverseShortTimeFT` leaves at
sample `n`: the sum, over the frames whose `frame_length`-long support
contains `n`, of that frame's segment at the matching offset. -/
theorem olaAccum_getD (opts : ShortTimeFTOptions) (window : List ℝ)
    (stft : List (List ℝ)) {n : ℕ} (h : n < NumSamples opts stft.length) :
    (olaAccum opts window stft).getD n 0 =
      ∑ i ∈ Finset.range stft.length,
        (if i * opts.frame_shift ≤ n ∧ n < i * opts.frame_shift + opts.frame_length
         then (istftFrame opts window (stft.getD i [])).getD (n - i * opts.frame_shift) 0
         else 0) := by
  unfold olaAccum
  rw [foldl_addFrame_getD _ _ _ _ (by simpa using h)]
  rw [getD_replicate_zero, zero_add]
  refine Finset.sum_congr rfl (fun i _ => ?_)
  rw [length_istftFrame]

/-! ### Padding length -/

theorem le_PaddingLength (opts : ShortTimeFTOptions) :
    opts.frame_length ≤ PaddingLength opts :=
  Nat.le_pow_clog (by norm_num) _

theorem PaddingLength_even (opts : ShortTimeFTOptions)
    (h : 2 ≤ opts.frame_length) : PaddingLength opts % 2 = 0 := by
  have hpos : 0 < Nat.clog 2 opts.frame_length := Nat.clog_pos (by norm_num) h
  obtain ⟨k, hk⟩ := Nat.exists_eq_succ_of_ne_zero (Nat.pos_iff_ne_zero.mp hpos)
  rw [PaddingLength, RoundUpToNearestPowerOfTwo, hk, pow_succ]
  exact Nat.mul_mod_left _ 2

/-! ### Window cache -/

theorem cacheWindowLoop_some (opts : ShortTimeFTOptions) (g : ℕ → ℝ) (l : List ℕ)
    (h : ∀ a ∈ l, windowSample opts a = some (g a)) :
    cacheWindowLoop opts l = some (l.map g) := by
  induction l with
  | nil => rfl
  | cons a t ih =>
      rw [cacheWindowLoop, h a (List.mem_cons_self a t),
        ih (fun x hx => h x (List.mem_cons_of_mem a hx))]
      rfl

theorem cacheWindowLoop_none_iff (opts : ShortTimeFTOptions) (l : List ℕ) :
    cacheWindowLoop opts l = none ↔ ∃ a ∈ l, windowSample opts a = none := by
  induction l with
  | nil => simp [cacheWindowLoop]
  | cons a t ih =>
      rw [cacheWindowLoop]
      cases hfa : windowSample opts a with
      | none => simp [hfa]
      | some b =>
          cases hl : cacheWindowLoop opts t with
          | none =>
              simp only []
              simp [hfa, ih.mp hl]
          | some ws =>
              have hnot : ¬ ∃ x ∈ t, windowSample opts x = none := by
                rw [← ih, hl]
                simp
              simp [hfa, hnot]

theorem windowSample_none_iff (opts : ShortTimeFTOptions) (i : ℕ) :
    windowSample opts i = none ↔ opts.window ∉ windowNames := by
  unfold windowSample
  split_ifs with h1 h2 h3 h4
  · exact iff_of_false (by simp) (by simp [windowNames, h1])
  · exact iff_of_false (by simp) (by simp [windowNames, h2])
  · exact iff_of_false (by simp) (by simp [windowNames, h3])
  · exact iff_of_false (by simp) (by simp [windowNames, h4])
  · exact iff_of_true rfl (by simp [windowNames, h1, h2, h3, h4])

theorem CacheWindow_none_iff (opts : ShortTimeFTOptions) :
    CacheWindow opts = none ↔
      0 < opts.frame_length ∧ opts.window ∉ windowNames := by
  rw [CacheWindow, cacheWindowLoop_none_iff]
  constructor
  · rintro ⟨i, hi, hnone⟩
    have hi' := List.mem_range.mp hi
    exact ⟨by omega, (windowSample_none_iff opts i).mp hnone⟩
  · rintro ⟨hL, hnot⟩
    exact ⟨0, List.mem_range.mpr hL, (windowSample_none_iff opts 0).mpr hnot⟩

theorem CacheWindow_rect (opts : ShortTimeFTOptions)
    (h : opts.window = "rectangular") :
    CacheWindow opts = some (List.replicate opts.frame_length 1) := by
  rw [CacheWindow]
  rw [cacheWindowLoop_some opts (fun _ => (1 : ℝ)) _ ?_]
  · rw [List.map_const', List.length_range]
  · intro i _
    unfold windowSample
    rw [h]
    rw [if_neg (by decide), if_neg (by decide), if_neg (by decide), if_pos rfl]
    norm_num

/-! ### Matrix entry access helpers -/

theorem getD_map_of_lt {α β : Type} (f : α → β) (l : List α) (dα : α) (dβ : β)
    {t : ℕ} (h : t < l.length) : (l.map f).getD t dβ = f (l.getD t dα) := by
  rw [List.getD_eq_getElem?_getD, List.getElem?_map, List.getElem?_eq_getElem h,
    List.getD_eq_getElem?_getD, List.getElem?_eq_getElem h]
  rfl

theorem getD_getD_map_map (g : ℝ → ℝ) (m : List (List ℝ)) {t f : ℕ}
    (ht : t < m.length) (hf : f < (m.getD t []).length) :
    ((m.map (List.map g)).getD t []).getD f 0 = g ((m.getD t []).getD f 0) := by
  rw [getD_map_of_lt (List.map g) m [] [] ht]
  exact getD_map_of_lt g _ 0 0 hf

theorem length_getD_map_map (g : ℝ → ℝ) (m : List (List ℝ)) {t : ℕ}
    (ht : t < m.length) :
    ((m.map (List.map g)).getD t []).length = (m.getD t []).length := by
  rw [getD_map_of_lt (List.map g) m [] [] ht, List.length_map]

theorem spectrogramRaw_length (stft : List (List ℝ)) :
    (spectrogramRaw stft).length = stft.length := by
  simp [spectrogramRaw]

theorem spectrogramRaw_row_length (stft : List (List ℝ)) {t : ℕ}
    (ht : t < stft.length) :
    ((spectrogramRaw stft).getD t []).length = numCols stft / 2 + 1 := by
  unfold spectrogramRaw
  rw [getD_map_of_lt _ stft [] [] ht, List.length_map, List.length_range]

theorem spectrogramRaw_getD (stft : List (List ℝ)) {t f : ℕ}
    (ht : t < stft.length) (hf : f < numCols stft / 2 + 1) :
    ((spectrogramRaw stft).getD t []).getD f 0 =
      (if f = numCols stft / 2 + 1 - 1 then (stft.getD t []).getD 1 0 ^ 2
       else if f = 0 then (stft.getD t []).getD 0 0 ^ 2
       else (stft.getD t []).getD (2 * f) 0 ^ 2 +
         (stft.getD t []).getD (2 * f + 1) 0 ^ 2) := by
  unfold spectrogramRaw
  rw [getD_map_of_lt _ stft [] [] ht]
  exact getD_map_range _ hf

/-! ### Claim theorems -/

/-- C9: whenever `num_samples ≥ frame_length` (and the shift is
positive), every frame index `i < NumFrames` satisfies
`i·frame_shift + frame_length ≤ num_samples`, so the clipped `iend`
computed at `stft.cc:56` equals the unclipped frame end and each frame
copies exactly `frame_length` samples. -/
theorem C9_frames_in_bounds (opts : ShortTimeFTOptions) (num_samples i : ℕ)
    (hL : opts.frame_length ≤ num_samples) (_hshift : 0 < opts.frame_shift)
    (hi : i < NumFrames opts num_samples) :
    i * opts.frame_shift + opts.frame_length ≤ num_samples ∧
    min (i * opts.frame_shift + opts.frame_length) num_samples =
      i * opts.frame_shift + opts.frame_length := by
  have h1 : i ≤ (num_samples - opts.frame_length) / opts.frame_shift := by
    unfold NumFrames at hi
    omega
  have h2 : i * opts.frame_shift ≤ num_samples - opts.frame_length := by
    calc i * opts.frame_shift
        ≤ ((num_samples - opts.frame_length) / opts.frame_shift) * opts.frame_shift :=
          Nat.mul_le_mul_right _ h1
      _ ≤ num_samples - opts.frame_length := Nat.div_mul_le_self _ _
  have h3 : i * opts.frame_shift + opts.frame_length ≤ num_samples := by omega
  exact ⟨h3, Nat.min_eq_left h3⟩

/-- Witness for C9 at the spec scenario: `frame_length = 4`,
`frame_shift = 2`, `num_samples = 6`, frame index `1`. -/
theorem C9_witness :
    1 * rectOpts42.frame_shift + rectOpts42.frame_length ≤ 6 ∧
    min (1 * rectOpts42.frame_shift + rectOpts42.frame_length) 6 =
      1 * rectOpts42.frame_shift + rectOpts42.frame_length :=
  C9_frames_in_bounds rectOpts42 6 1 (by decide) (by decide) (by decide)

/-- C7 (amended): `CacheWindow` aborts exactly when `frame_length` is
positive and the window name is unrecognised (with `frame_length = 0`
the loop body — and hence the `KALDI_ERR` — is never reached), and
`ShortTimeFT` aborts exactly when the cached window's length differs
from `frame_length`; no other input condition makes either fail. -/
theorem C7_fatal_conditions (opts : ShortTimeFTOptions) (window : List ℝ)
    (wave : List (List ℝ)) :
    (CacheWindow opts = none ↔
      0 < opts.frame_length ∧ opts.window ∉ windowNames) ∧
    (ShortTimeFT opts window wave = none ↔
      window.length ≠ opts.frame_length) := by
  refine ⟨CacheWindow_none_iff opts, ?_⟩
  unfold ShortTimeFT
  split_ifs with h <;> simp [h]

/-- C7 counterexample to the claim as stated: with `frame_length = 0`
the window name "gaussian" is unrecognised and yet `CacheWindow` does
not raise the fatal error (the loop body never executes). -/
theorem C7_counterexample :
    gaussOpts.window ∉ windowNames ∧ CacheWindow gaussOpts ≠ none := by
  constructor
  · decide
  · have h : CacheWindow gaussOpts = some [] := rfl
    rw [h]
    exact Option.some_ne_none _

/-- C8: `ShortTimeFT` never mutates its `wave` argument — the source
copies it (`Matrix<BaseFloat> copy_mat(wave)`) and applies the
`normalize_input` / `enable_scale` scaling to the copy only, so the
caller's buffer after the call is the buffer passed in, while the
transform output is computed from the scaled copy. -/
theorem C8_wave_not_mutated (opts : ShortTimeFTOptions) (window : List ℝ)
    (wave : List (List ℝ)) :
    (shortTimeFTProc opts window wave).2 = wave ∧
    (shortTimeFTProc opts window wave).1 = ShortTimeFT opts window wave :=
  ⟨rfl, rfl⟩

theorem spectrogramPre_length (opts : ShortTimeFTOptions) (stft : List (List ℝ)) :
    (spectrogramPre opts stft).length = stft.length := by
  unfold spectrogramPre
  split_ifs <;> simp [spectrogramRaw]

theorem spectrogramPre_row_length (opts : ShortTimeFTOptions)
    (stft : List (List ℝ)) {t : ℕ} (ht : t < stft.length) :
    ((spectrogramPre opts stft).getD t []).length = numCols stft / 2 + 1 := by
  unfold spectrogramPre
  split_ifs
  · exact spectrogramRaw_row_length stft ht
  · rw [length_getD_map_map _ _ (by rwa [spectrogramRaw_length])]
    exact spectrogramRaw_row_length stft ht

theorem spectrogramPre_getD (opts : ShortTimeFTOptions) (stft : List (List ℝ))
    {t f : ℕ} (ht : t < stft.length) (hf : f < numCols stft / 2 + 1) :
    ((spectrogramPre opts stft).getD t []).getD f 0 =
      (if opts.apply_pow then ((spectrogramRaw stft).getD t []).getD f 0
       else Real.sqrt (((spectrogramRaw stft).getD t []).getD f 0)) := by
  unfold spectrogramPre
  by_cases hp : opts.apply_pow
  · rw [if_pos hp, if_pos hp]
  · rw [if_neg hp, if_neg hp]
    exact getD_getD_map_map _ _ (by rwa [spectrogramRaw_length])
      (by rw [spectrogramRaw_row_length stft ht]; exact hf)

theorem ComputeSpectrogram_getD (opts : ShortTimeFTOptions) (stft : List (List ℝ))
    {t f : ℕ} (ht : t < stft.length) (hf : f < numCols stft / 2 + 1) :
    ((ComputeSpectrogram opts stft).getD t []).getD f 0 =
      (if opts.apply_log then
        Real.log (max (((spectrogramPre opts stft).getD t []).getD f 0) epsilonF)
       else ((spectrogramPre opts stft).getD t []).getD f 0) := by
  unfold ComputeSpectrogram
  by_cases hl : opts.apply_log
  · rw [if_pos hl, if_pos hl]
    exact getD_getD_map_map _ _ (by rwa [spectrogramPre_length])
      (by rw [spectrogramPre_row_length opts stft ht]; exact hf)
  · rw [if_neg hl, if_neg hl]

/-- C2: `ComputeSpectrogram` returns a `frames × (window_size/2 + 1)`
matrix whose bin `0` and Nyquist entries square only the stored real
components (packed slots `0` and `1`), whose interior bin `f` is
`r² + i²` from slots `2f, 2f+1`; the square root is applied unless
`apply_pow`, and under `apply_log` every entry is floored by machine
epsilon and replaced by its natural log. -/
theorem C2_spectrogram (opts : ShortTimeFTOptions) (stft : List (List ℝ))
    (hW : 2 ≤ numCols stft) :
    (ComputeSpectrogram opts stft).length = stft.length ∧
    (∀ t, t < stft.length →
      ((ComputeSpectrogram opts stft).getD t []).length = numCols stft / 2 + 1) ∧
    (∀ t, t < stft.length → ∀ f, f < numCols stft / 2 + 1 →
      ((ComputeSpectrogram opts stft).getD t []).getD f 0 =
        (fun y => if opts.apply_log then Real.log (max y epsilonF) else y)
          ((fun x => if opts.apply_pow then x else Real.sqrt x)
            (if f = 0 then (stft.getD t []).getD 0 0 ^ 2
             else if f = numCols stft / 2 then (stft.getD t []).getD 1 0 ^ 2
             else (stft.getD t []).getD (2 * f) 0 ^ 2 +
               (stft.getD t []).getD (2 * f + 1) 0 ^ 2))) := by
  refine ⟨?_, ?_, ?_⟩
  · unfold ComputeSpectrogram
    split_ifs
    · rw [List.length_map, spectrogramPre_length]
    · rw [spectrogramPre_length]
  · intro t ht
    unfold ComputeSpectrogram
    split_ifs
    · rw [length_getD_map_map _ _ (by rwa [spectrogramPre_length])]
      exact spectrogramPre_row_length opts stft ht
    · exact spectrogramPre_row_length opts stft ht
  · intro t ht f hf
    have hbranch :
        (if f = numCols stft / 2 + 1 - 1 then (stft.getD t []).getD 1 0 ^ 2
         else if f = 0 then (stft.getD t []).getD 0 0 ^ 2
         else (stft.getD t []).getD (2 * f) 0 ^ 2 +
           (stft.getD t []).getD (2 * f + 1) 0 ^ 2) =
        (if f = 0 then (stft.getD t []).getD 0 0 ^ 2
         else if f = numCols stft / 2 then (stft.getD t []).getD 1 0 ^ 2
         else (stft.getD t []).getD (2 * f) 0 ^ 2 +
           (stft.getD t []).getD (2 * f + 1) 0 ^ 2) := by
      have hmid : 1 ≤ numCols stft / 2 := by omega
      have hnb : numCols stft / 2 + 1 - 1 = numCols stft / 2 := by omega
      rw [hnb]
      split_ifs <;> first | rfl | omega
    rw [ComputeSpectrogram_getD opts stft ht hf, spectrogramPre_getD opts stft ht hf,
      spectrogramRaw_getD stft ht hf, hbranch]

/-- Witness for C2 with `apply_pow` set, on the single packed row
`[1, 2, 3, 4]`: the interior bin equals `3² + 4²`. -/
theorem C2_witness :
    ((ComputeSpectrogram powOpts [[(1 : ℝ), 2, 3, 4]]).getD 0 []).getD 1 0 =
      (3 : ℝ) ^ 2 + 4 ^ 2 := by
  have h := (C2_spectrogram powOpts [[(1 : ℝ), 2, 3, 4]]
    (by norm_num [numCols])).2.2 0 (by norm_num) 1 (by norm_num [numCols])
  rw [h]
  norm_num [numCols, powOpts]

theorem polarSpectra_getD (opts : ShortTimeFTOptions) (spectra : List (List ℝ))
    {t f : ℕ} (ht : t < spectra.length) (hf : f < (spectra.getD t []).length) :
    ((polarSpectra opts spectra).getD t []).getD f 0 =
      (fun x => if opts.apply_pow then Real.sqrt x else x)
        ((fun x => if opts.apply_log then Real.exp x else x)
          ((spectra.getD t []).getD f 0)) := by
  unfold polarSpectra
  by_cases hl : opts.apply_log <;> by_cases hp : opts.apply_pow <;>
    simp only [hl, hp, if_true, if_false, Bool.false_eq_true, if_neg, ite_true, ite_false]
  · rw [getD_getD_map_map _ _ (by simpa using ht)
      (by rw [length_getD_map_map _ _ ht]; exact hf)]
    rw [getD_getD_map_map _ _ ht hf]
  · rw [getD_getD_map_map _ _ ht hf]
  · rw [getD_getD_map_map _ _ ht hf]

/-- C10 (amended): under `apply_log` / `apply_pow`, `Polar` mutates its
`spectra` argument in place, replacing every entry by its exponential
and/or square root — so the matrix in general no longer holds the values
passed in (always so when `apply_log` alone is set and the matrix is
nonempty, since `exp x > x`; a square root may fix an entry such as `1`);
when neither option is set, `spectra` is left unchanged. -/
theorem C10_polar_mutation (opts : ShortTimeFTOptions)
    (spectra angle : List (List ℝ)) :
    (∀ t f, t < spectra.length → f < (spectra.getD t []).length →
      (((polarProc opts spectra angle).2).getD t []).getD f 0 =
        (fun x => if opts.apply_pow then Real.sqrt x else x)
          ((fun x => if opts.apply_log then Real.exp x else x)
            ((spectra.getD t []).getD f 0))) ∧
    (opts.apply_log = false → opts.apply_pow = false →
      (polarProc opts spectra angle).2 = spectra) ∧
    (opts.apply_log = true → opts.apply_pow = false →
      0 < spectra.length → 0 < (spectra.getD 0 []).length →
      (polarProc opts spectra angle).2 ≠ spectra) := by
  refine ⟨?_, ?_, ?_⟩
  · intro t f ht hf
    exact polarSpectra_getD opts spectra ht hf
  · intro hl hp
    show polarSpectra opts spectra = spectra
    unfold polarSpectra
    rw [hl, hp]
    simp
  · intro hl hp hrow hcol
    intro heq
    have hentry := polarSpectra_getD opts spectra hrow hcol
    rw [show (polarProc opts spectra angle).2 = polarSpectra opts spectra from rfl]
      at heq
    rw [heq, hl, hp] at hentry
    simp only [if_false, if_true, Bool.false_eq_true, ite_true, ite_false] at hentry
    have hgt := Real.add_one_le_exp ((spectra.getD 0 []).getD 0 0)
    rw [← hentry] at hgt
    linarith

/-- C10 counterexample to the claim as stated: with `apply_pow` set and
the magnitude matrix `[[1]]`, `Polar`'s in-place `ApplyPow(0.5)` leaves
the caller's matrix exactly as passed in (`√1 = 1`). -/
theorem C10_counterexample :
    powOpts.apply_pow = true ∧
    (polarProc powOpts [[(1 : ℝ)]] [[0]]).2 = [[(1 : ℝ)]] := by
  refine ⟨rfl, ?_⟩
  show polarSpectra powOpts [[(1 : ℝ)]] = [[(1 : ℝ)]]
  unfold polarSpectra
  norm_num [powOpts, Real.sqrt_one]

/-- Witness for C10 applied with `apply_log` set on the nonempty matrix
`[[0]]`: the buffer really is changed. -/
theorem C10_witness :
    (polarProc logOpts [[(0 : ℝ)]] [[0]]).2 ≠ [[(0 : ℝ)]] :=
  (C10_polar_mutation logOpts [[(0 : ℝ)]] [[0]]).2.2 rfl rfl (by simp) (by simp)

/-! ### Rescaling (claim C5) -/

theorem rescale_of_neg (samples : List ℝ) {range : ℝ} (h : range < 0) :
    rescale samples range = samples := by
  unfold rescale
  dsimp only
  rw [if_neg (ne_of_lt h), if_neg (not_le.mpr h)]

theorem rescale_of_pos (samples : List ℝ) {range : ℝ} (h : 0 < range) :
    rescale samples range = samples.map (fun x => x * (range / infNorm samples)) := by
  unfold rescale
  dsimp only
  rw [if_neg (ne_of_gt h), if_pos (le_of_lt h)]

theorem rescale_of_zero (samples : List ℝ) :
    rescale samples 0 = samples.map (fun x => x * (int16_max / infNorm samples)) := by
  unfold rescale
  dsimp only
  rw [if_pos rfl, if_pos (by norm_num [int16_max])]

/-- C5 (amended): provided the overlap-added waveform is not identically
zero, `InverseShortTimeFT` rescales it so its peak equals `range` when
`range > 0`, so its peak equals the 16-bit signed maximum when
`range = 0`, and returns it untouched when `range < 0` (on the all-zero
waveform the scale `range / 0` is ill-defined and no peak can be set). -/
theorem C5_rescale (opts : ShortTimeFTOptions) (window : List ℝ)
    (stft : List (List ℝ)) (range : ℝ)
    (hnz : infNorm (olaAccum opts window stft) ≠ 0) :
    (0 < range →
      infNorm ((InverseShortTimeFT opts window stft range).getD 0 []) = range) ∧
    (range = 0 →
      infNorm ((InverseShortTimeFT opts window stft range).getD 0 []) = int16_max) ∧
    (range < 0 →
      InverseShortTimeFT opts window stft range = [olaAccum opts window stft]) := by
  have hpos : 0 < infNorm (olaAccum opts window stft) :=
    lt_of_le_of_ne (infNorm_nonneg _) (Ne.symm hnz)
  refine ⟨?_, ?_, ?_⟩
  · intro hr
    show infNorm (rescale (olaAccum opts window stft) range) = range
    rw [rescale_of_pos _ hr, infNorm_map_mul,
      abs_of_nonneg (div_nonneg (le_of_lt hr) (infNorm_nonneg _))]
    field_simp
  · intro hr
    subst hr
    show infNorm (rescale (olaAccum opts window stft) 0) = int16_max
    rw [rescale_of_zero, infNorm_map_mul,
      abs_of_nonneg (div_nonneg (by norm_num [int16_max]) (infNorm_nonneg _))]
    field_simp
  · intro hr
    show [rescale (olaAccum opts window stft) range] = _
    rw [rescale_of_neg _ hr]

theorem complex_mk_zero : (⟨0, 0⟩ : ℂ) = 0 := Complex.ext rfl rfl

theorem srfftInverse_unit4 : srfftInverse [(1 : ℝ), 0, 0, 0] = [1, 1, 1, 1] := by
  unfold srfftInverse idftC unpack
  norm_num [List.range_succ, Finset.sum_range_succ, List.getD, complex_mk_zero,
    expUnit_zero]

theorem srfftInverse_zero4 : srfftInverse [(0 : ℝ), 0, 0, 0] = [0, 0, 0, 0] := by
  unfold srfftInverse idftC unpack
  norm_num [List.range_succ, Finset.sum_range_succ, List.getD, complex_mk_zero,
    expUnit_zero]

theorem istftFrame_unit4 :
    istftFrame rectOpts44 (List.replicate 4 1) [(1 : ℝ), 0, 0, 0] =
      [1 / 4, 1 / 4, 1 / 4, 1 / 4] := by
  unfold istftFrame
  rw [show srfftCompute false [(1 : ℝ), 0, 0, 0] = srfftInverse [(1 : ℝ), 0, 0, 0]
    from rfl, srfftInverse_unit4]
  norm_num [rectOpts44, List.range_succ, List.getD]

theorem istftFrame_zero4 :
    istftFrame rectOpts44 (List.replicate 4 1) [(0 : ℝ), 0, 0, 0] = [0, 0, 0, 0] := by
  unfold istftFrame
  rw [show srfftCompute false [(0 : ℝ), 0, 0, 0] = srfftInverse [(0 : ℝ), 0, 0, 0]
    from rfl, srfftInverse_zero4]
  norm_num [rectOpts44, List.range_succ, List.getD]

theorem olaAccum_unit4 :
    olaAccum rectOpts44 (List.replicate 4 1) [[(1 : ℝ), 0, 0, 0]] =
      [1 / 4, 1 / 4, 1 / 4, 1 / 4] := by
  unfold olaAccum
  rw [show NumSamples rectOpts44 ([[(1 : ℝ), 0, 0, 0]].length) = 4 from rfl,
    show List.range ([[(1 : ℝ), 0, 0, 0]].length) = [0] from rfl,
    List.foldl_cons, List.foldl_nil]
  rw [show ([[(1 : ℝ), 0, 0, 0]].getD 0 []) = [(1 : ℝ), 0, 0, 0] from rfl,
    istftFrame_unit4]
  unfold addFrame
  norm_num [rectOpts44, List.range_succ, List.getD]

theorem olaAccum_zero4 :
    olaAccum rectOpts44 (List.replicate 4 1) [[(0 : ℝ), 0, 0, 0]] = [0, 0, 0, 0] := by
  unfold olaAccum
  rw [show NumSamples rectOpts44 ([[(0 : ℝ), 0, 0, 0]].length) = 4 from rfl,
    show List.range ([[(0 : ℝ), 0, 0, 0]].length) = [0] from rfl,
    List.foldl_cons, List.foldl_nil]
  rw [show ([[(0 : ℝ), 0, 0, 0]].getD 0 []) = [(0 : ℝ), 0, 0, 0] from rfl,
    istftFrame_zero4]
  unfold addFrame
  norm_num [rectOpts44, List.range_succ, List.getD]

/-- C5 counterexample to the claim as stated: on the all-zero frame the
accumulated waveform has zero peak, and with `range = 1` the output's
peak is `0`, not `1` — the rescale divides by a zero norm. -/
theorem C5_counterexample :
    infNorm ((InverseShortTimeFT rectOpts44 (List.replicate 4 1)
      [[(0 : ℝ), 0, 0, 0]] 1).getD 0 []) ≠ 1 := by
  show infNorm (rescale (olaAccum rectOpts44 (List.replicate 4 1)
    [[(0 : ℝ), 0, 0, 0]]) 1) ≠ 1
  rw [olaAccum_zero4, rescale_of_pos _ one_pos]
  norm_num [infNorm]

/-- Witness for C5 at a nonzero one-frame buffer with `range = 0`: the
peak of the reconstructed waveform is exactly `int16_max`. -/
theorem C5_witness :
    infNorm (olaAccum rectOpts44 (List.replicate 4 1) [[(1 : ℝ), 0, 0, 0]]) ≠ 0 ∧
    infNorm ((InverseShortTimeFT rectOpts44 (List.replicate 4 1)
      [[(1 : ℝ), 0, 0, 0]] 0).getD 0 []) = int16_max := by
  have hnz : infNorm (olaAccum rectOpts44 (List.replicate 4 1)
      [[(1 : ℝ), 0, 0, 0]]) ≠ 0 := by
    rw [olaAccum_unit4]
    have hb := abs_getD_le_infNorm
      (l := [(1 / 4 : ℝ), 1 / 4, 1 / 4, 1 / 4]) (n := 0) (by norm_num)
    rw [show ([(1 / 4 : ℝ), 1 / 4, 1 / 4, 1 / 4].getD 0 0) = 1 / 4 from rfl,
      abs_of_pos (by norm_num)] at hb
    intro h0
    rw [h0] at hb
    linarith
  exact ⟨hnz, (C5_rescale rectOpts44 (List.replicate 4 1)
    [[(1 : ℝ), 0, 0, 0]] 0 hnz).2.1 rfl⟩

/-! ### Inverse transform shape (claim C4) -/

theorem getD_map_mul (l : List ℝ) (c : ℝ) (j : ℕ) :
    (l.map (fun x => x * c)).getD j 0 = l.getD j 0 * c := by
  rcases lt_or_le j l.length with h | h
  · exact getD_map_of_lt _ l 0 0 h
  · rw [List.getD_eq_getElem?_getD, List.getElem?_eq_none (by simpa using h),
      List.getD_eq_getElem?_getD, List.getElem?_eq_none (by simpa using h)]
    norm_num

theorem istftFrame_getD (opts : ShortTimeFTOptions) (window row : List ℝ)
    {j : ℕ} (hj : j < opts.frame_length) :
    (istftFrame opts window row).getD j 0 =
      ((srfftCompute false row).getD j 0 * (1 / (opts.frame_length : ℝ))) *
        window.getD j 0 := by
  unfold istftFrame
  rw [getD_map_range _ hj, getD_map_mul]

/-- C4: `InverseShortTimeFT` yields one single row of exactly
`(num_frames − 1)·frame_shift + frame_length` samples, and the
accumulated waveform is the overlap-add of the per-frame segments:
inverse real FFT of the frame's row, scaled by `1/frame_length`,
multiplied elementwise by the window, added at offset
`frame_index · frame_shift`. -/
theorem C4_inverse_shape (opts : ShortTimeFTOptions) (window : List ℝ)
    (stft : List (List ℝ)) (range : ℝ) :
    (InverseShortTimeFT opts window stft range).length = 1 ∧
    ((InverseShortTimeFT opts window stft range).getD 0 []).length =
      (stft.length - 1) * opts.frame_shift + opts.frame_length ∧
    (∀ n, n < NumSamples opts stft.length →
      (olaAccum opts window stft).getD n 0 =
        ∑ i ∈ Finset.range stft.length,
          (if i * opts.frame_shift ≤ n ∧ n < i * opts.frame_shift + opts.frame_length
           then ((srfftCompute false (stft.getD i [])).getD
               (n - i * opts.frame_shift) 0 * (1 / (opts.frame_length : ℝ))) *
             window.getD (n - i * opts.frame_shift) 0
           else 0)) := by
  refine ⟨rfl, ?_, ?_⟩
  · show (rescale (olaAccum opts window stft) range).length = _
    rw [length_rescale, length_olaAccum]
    rfl
  · intro n hn
    rw [olaAccum_getD opts window stft hn]
    refine Finset.sum_congr rfl (fun i _ => ?_)
    by_cases hc : i * opts.frame_shift ≤ n ∧ n < i * opts.frame_shift + opts.frame_length
    · rw [if_pos hc, if_pos hc, istftFrame_getD opts window _ (by omega)]
    · rw [if_neg hc, if_neg hc]

/-- Witness for C4 at a one-frame buffer, sample `0`. -/
theorem C4_witness :
    0 < NumSamples rectOpts44 ([[(1 : ℝ), 0, 0, 0]].length) ∧
    (olaAccum rectOpts44 (List.replicate 4 1) [[(1 : ℝ), 0, 0, 0]]).getD 0 0 =
      ∑ i ∈ Finset.range ([[(1 : ℝ), 0, 0, 0]].length),
        (if i * rectOpts44.frame_shift ≤ 0 ∧
            0 < i * rectOpts44.frame_shift + rectOpts44.frame_length
         then ((srfftCompute false ([[(1 : ℝ), 0, 0, 0]].getD i [])).getD
             (0 - i * rectOpts44.frame_shift) 0 *
           (1 / (rectOpts44.frame_length : ℝ))) *
           (List.replicate 4 (1 : ℝ)).getD (0 - i * rectOpts44.frame_shift) 0
         else 0) :=
  ⟨by decide,
   (C4_inverse_shape rectOpts44 (List.replicate 4 1)
     [[(1 : ℝ), 0, 0, 0]] (-1)).2.2 0 (by decide)⟩

/-! ### The worked scenario (claim C6) -/

theorem clog_two_four : Nat.clog 2 4 = 2 := by
  have hub : Nat.clog 2 4 ≤ 2 :=
    (Nat.le_pow_iff_clog_le (by norm_num)).mp (by norm_num)
  have hlb : ¬ Nat.clog 2 4 ≤ 1 := by
    intro h
    have := (Nat.le_pow_iff_clog_le (b := 2) (by norm_num)).mpr h
    norm_num at this
  omega

theorem PaddingLength_rectOpts42 : PaddingLength rectOpts42 = 4 := by
  show 2 ^ Nat.clog 2 4 = 4
  rw [clog_two_four]
  norm_num

theorem frameRow_scenario_0 :
    frameRow rectOpts42 (List.replicate 4 1) [(1 : ℝ), 2, 3, 4, 5, 6] 0 =
      srfftForward [(1 : ℝ), 2, 3, 4] := by
  unfold frameRow
  dsimp only
  rw [show srfftCompute true = srfftForward from rfl]
  congr 1
  rw [PaddingLength_rectOpts42]
  norm_num [rectOpts42, List.range_succ, List.getD]

theorem frameRow_scenario_1 :
    frameRow rectOpts42 (List.replicate 4 1) [(1 : ℝ), 2, 3, 4, 5, 6] 1 =
      srfftForward [(3 : ℝ), 4, 5, 6] := by
  unfold frameRow
  dsimp only
  rw [show srfftCompute true = srfftForward from rfl]
  congr 1
  rw [PaddingLength_rectOpts42]
  norm_num [rectOpts42, List.range_succ, List.getD]

/-- C6: with `frame_length = 4`, `frame_shift = 2`, rectangular window
and the one-channel waveform `[1,2,3,4,5,6]`, `ShortTimeFT` produces
exactly `2 = (6−4)/2 + 1` frames, which are the packed real FFTs of the
slices `[1,2,3,4]` and `[3,4,5,6]`; in particular the first output row
is the packed real FFT of `[1,2,3,4]`. -/
theorem C6_scenario :
    NumFrames rectOpts42 6 = 2 ∧
    ShortTimeFT rectOpts42 (List.replicate 4 1) [[(1 : ℝ), 2, 3, 4, 5, 6]] =
      some [srfftForward [(1 : ℝ), 2, 3, 4], srfftForward [(3 : ℝ), 4, 5, 6]] := by
  refine ⟨by decide, ?_⟩
  unfold ShortTimeFT
  rw [if_pos (show (List.replicate 4 (1 : ℝ)).length = rectOpts42.frame_length by
    rw [List.length_replicate]; rfl)]
  congr 1
  unfold shortTimeFTCore
  dsimp only
  rw [show NumFrames rectOpts42 (numCols [[(1 : ℝ), 2, 3, 4, 5, 6]]) = 2 from rfl,
    show List.range ([[(1 : ℝ), 2, 3, 4, 5, 6]].length) = [0] from rfl,
    show List.range 2 = [0, 1] from rfl]
  simp only [List.flatMap_cons, List.flatMap_nil, List.append_nil, List.map_cons,
    List.map_nil]
  have hch : scaledChannel rectOpts42 ([[(1 : ℝ), 2, 3, 4, 5, 6]].getD 0 []) =
      [(1 : ℝ), 2, 3, 4, 5, 6] := by
    simp [scaledChannel, rectOpts42, List.getD]
  rw [hch, frameRow_scenario_0, frameRow_scenario_1]

/-! ### Phase angle and polar reconstruction (claim C3) -/

theorem getElem_eq_getD {α : Type} {l : List α} (d : α) {t : ℕ} (h : t < l.length) :
    l[t] = l.getD t d := by
  rw [List.getD_eq_getElem?_getD, List.getElem?_eq_getElem h]
  rfl

theorem numCols_eq_getD (m : List (List ℝ)) : numCols m = (m.getD 0 []).length := by
  cases m <;> rfl

theorem complex_mk_one : (⟨1, 0⟩ : ℂ) = 1 := Complex.ext rfl rfl

theorem getD_range {n t : ℕ} (h : t < n) : (List.range n).getD t 0 = t := by
  rw [List.getD_eq_getElem?_getD, List.getElem?_range h]
  rfl

theorem ComputeSpectrogram_length (opts : ShortTimeFTOptions)
    (stft : List (List ℝ)) :
    (ComputeSpectrogram opts stft).length = stft.length := by
  unfold ComputeSpectrogram
  split_ifs
  · rw [List.length_map, spectrogramPre_length]
  · rw [spectrogramPre_length]

theorem ComputeSpectrogram_row_length (opts : ShortTimeFTOptions)
    (stft : List (List ℝ)) {t : ℕ} (ht : t < stft.length) :
    ((ComputeSpectrogram opts stft).getD t []).length = numCols stft / 2 + 1 := by
  unfold ComputeSpectrogram
  split_ifs
  · rw [length_getD_map_map _ _ (by rwa [spectrogramPre_length])]
    exact spectrogramPre_row_length opts stft ht
  · exact spectrogramPre_row_length opts stft ht

theorem ComputePhaseAngle_length (stft : List (List ℝ)) :
    (ComputePhaseAngle stft).length = stft.length := by
  simp [ComputePhaseAngle]

theorem ComputePhaseAngle_row_length (stft : List (List ℝ)) {t : ℕ}
    (ht : t < stft.length) :
    ((ComputePhaseAngle stft).getD t []).length = numCols stft / 2 + 1 := by
  unfold ComputePhaseAngle
  rw [getD_map_of_lt _ stft [] [] ht, List.length_map, List.length_range]

theorem ComputePhaseAngle_getD (stft : List (List ℝ)) {t f : ℕ}
    (ht : t < stft.length) (hf : f < numCols stft / 2 + 1) :
    ((ComputePhaseAngle stft).getD t []).getD f 0 =
      (if f = numCols stft / 2 + 1 - 1 then atan2 0 ((stft.getD t []).getD 1 0)
       else if f = 0 then atan2 0 ((stft.getD t []).getD 0 0)
       else atan2 ((stft.getD t []).getD (2 * f + 1) 0)
         ((stft.getD t []).getD (2 * f) 0)) := by
  unfold ComputePhaseAngle
  rw [getD_map_of_lt _ stft [] [] ht]
  exact getD_map_range _ hf

theorem Polar_length (opts : ShortTimeFTOptions) (spectra angle : List (List ℝ)) :
    (Polar opts spectra angle).length = spectra.length := by
  simp [Polar, polarProc]

theorem Polar_row_length (opts : ShortTimeFTOptions)
    (spectra angle : List (List ℝ)) {t : ℕ} (ht : t < spectra.length) :
    ((Polar opts spectra angle).getD t []).length = (numCols spectra - 1) * 2 := by
  unfold Polar polarProc
  dsimp only
  rw [getD_map_of_lt _ _ 0 [] (by rwa [List.length_range]), List.length_map,
    List.length_range]

theorem Polar_getD (opts : ShortTimeFTOptions) (spectra angle : List (List ℝ))
    {t s : ℕ} (ht : t < spectra.length) (hs : s < (numCols spectra - 1) * 2) :
    ((Polar opts spectra angle).getD t []).getD s 0 =
      (if s = 0 then ((polarSpectra opts spectra).getD t []).getD 0 0
       else if s = 1 then
         -(((polarSpectra opts spectra).getD t []).getD (numCols spectra - 1) 0)
       else if s % 2 = 0 then
         Real.cos ((angle.getD t []).getD (s / 2) 0) *
           ((polarSpectra opts spectra).getD t []).getD (s / 2) 0
       else
         Real.sin ((angle.getD t []).getD (s / 2) 0) *
           ((polarSpectra opts spectra).getD t []).getD (s / 2) 0) := by
  unfold Polar polarProc
  dsimp only
  rw [getD_map_of_lt _ _ 0 [] (by rwa [List.length_range]), getD_range ht]
  exact getD_map_range _ hs

/-- C3 counterexample to the claim as stated: for the single-frame
buffer `[[0, 1, 0, 0]]` (Nyquist component `+1`), `Polar` of the
spectrogram and phase matrices stores `−1` in the Nyquist slot and does
not reconstruct the buffer. -/
theorem C3_counterexample :
    Polar rectOpts44 (ComputeSpectrogram rectOpts44 [[(0 : ℝ), 1, 0, 0]])
      (ComputePhaseAngle [[(0 : ℝ), 1, 0, 0]]) ≠ [[(0 : ℝ), 1, 0, 0]] := by
  have hCS : ComputeSpectrogram rectOpts44 [[(0 : ℝ), 1, 0, 0]] =
      [[(0 : ℝ), 0, 1]] := by
    unfold ComputeSpectrogram spectrogramPre spectrogramRaw
    norm_num [rectOpts44, numCols, List.range_succ, List.getD, Real.sqrt_one]
  have hPA : ComputePhaseAngle [[(0 : ℝ), 1, 0, 0]] = [[(0 : ℝ), 0, 0]] := by
    unfold ComputePhaseAngle
    norm_num [numCols, List.range_succ, List.getD, atan2, complex_mk_zero,
      complex_mk_one, Complex.arg_zero, Complex.arg_one]
  have hP : Polar rectOpts44 [[(0 : ℝ), 0, 1]] [[(0 : ℝ), 0, 0]] =
      [[(0 : ℝ), -1, 0, 0]] := by
    unfold Polar polarProc polarSpectra
    norm_num [rectOpts44, numCols, List.range_succ, List.getD]
  rw [hCS, hPA, hP]
  intro h
  have h2 := congrArg (fun m : List (List ℝ) => (m.getD 0 []).getD 1 0) h
  norm_num [List.getD] at h2

theorem epsilonF_pos : 0 < epsilonF := by
  norm_num [epsilonF]

/-- Undoing `Polar`'s exp / square-root steps on the spectrogram always
recovers the raw magnitude `√(r² + i²)`, whichever of `apply_pow` /
`apply_log` are configured — provided, under `apply_log`, the
pre-flooring value was at least machine epsilon. -/
theorem polar_mag_recovery (opts : ShortTimeFTOptions) (stft : List (List ℝ))
    {t f : ℕ} (ht : t < stft.length) (hf : f < numCols stft / 2 + 1)
    (hlog : opts.apply_log = true →
      epsilonF ≤ ((spectrogramPre opts stft).getD t []).getD f 0) :
    ((polarSpectra opts (ComputeSpectrogram opts stft)).getD t []).getD f 0 =
      Real.sqrt (((spectrogramRaw stft).getD t []).getD f 0) := by
  have htCS : t < (ComputeSpectrogram opts stft).length := by
    rw [ComputeSpectrogram_length]
    exact ht
  have hfCS : f < ((ComputeSpectrogram opts stft).getD t []).length := by
    rw [ComputeSpectrogram_row_length opts stft ht]
    exact hf
  rw [polarSpectra_getD opts _ htCS hfCS, ComputeSpectrogram_getD opts stft ht hf]
  rw [spectrogramPre_getD opts stft ht hf] at hlog ⊢
  by_cases hl : opts.apply_log <;> by_cases hp : opts.apply_pow <;>
    simp only [hl, hp, if_true, if_false, Bool.false_eq_true, ite_true, ite_false]
  · have hle := hlog hl
    rw [if_pos hp] at hle
    rw [Real.exp_log (lt_of_lt_of_le epsilonF_pos (le_max_right _ _)),
      max_eq_left hle]
  · have hle := hlog hl
    rw [if_neg hp] at hle
    rw [Real.exp_log (lt_of_lt_of_le epsilonF_pos (le_max_right _ _)),
      max_eq_left hle]

theorem cos_atan2_mul (r i : ℝ) :
    Real.cos (atan2 i r) * Real.sqrt (r ^ 2 + i ^ 2) = r := by
  have habs : Real.sqrt (r ^ 2 + i ^ 2) = Complex.abs ⟨r, i⟩ := by
    rw [Complex.abs_apply, Complex.normSq_mk]
    ring_nf
  rw [habs, atan2, mul_comm]
  exact Complex.abs_mul_cos_arg ⟨r, i⟩

theorem sin_atan2_mul (r i : ℝ) :
    Real.sin (atan2 i r) * Real.sqrt (r ^ 2 + i ^ 2) = i := by
  have habs : Real.sqrt (r ^ 2 + i ^ 2) = Complex.abs ⟨r, i⟩ := by
    rw [Complex.abs_apply, Complex.normSq_mk]
    ring_nf
  rw [habs, atan2, mul_comm]
  exact Complex.abs_mul_sin_arg ⟨r, i⟩

theorem list_eq_of_getD {l m : List ℝ} (hlen : l.length = m.length)
    (h : ∀ i, i < l.length → l.getD i 0 = m.getD i 0) : l = m := by
  apply List.ext_getElem hlen
  intro i h1 h2
  rw [getElem_eq_getD 0 h1, getElem_eq_getD 0 h2]
  exact h i h1

theorem matrix_eq_of_getD {l m : List (List ℝ)} (hlen : l.length = m.length)
    (h : ∀ t, t < l.length → l.getD t [] = m.getD t []) : l = m := by
  apply List.ext_getElem hlen
  intro t h1 h2
  rw [getElem_eq_getD [] h1, getElem_eq_getD [] h2]
  exact h t h1

/-- C3 (amended): `Polar` of `ComputeSpectrogram b` and
`ComputePhaseAngle b` undoes log/pow when configured, writes
`(mag·cosθ, mag·sinθ)` into each interior bin's `(real, imag)` slots,
the bin-0 magnitude into slot `0` and the negated Nyquist magnitude into
slot `1` — and reconstructs `b` exactly, provided every row's bin-0
component is nonnegative and its Nyquist component nonpositive (the
stored magnitudes cannot represent the dropped signs), and, when
`apply_log` is set, every pre-flooring spectrogram value is at least
machine epsilon. -/
theorem C3_polar_roundtrip (opts : ShortTimeFTOptions) (stft : List (List ℝ))
    (hW2 : 2 ≤ numCols stft) (hWeven : numCols stft % 2 = 0)
    (hrows : ∀ r ∈ stft, r.length = numCols stft)
    (hb0 : ∀ r ∈ stft, 0 ≤ r.getD 0 0)
    (hb1 : ∀ r ∈ stft, r.getD 1 0 ≤ 0)
    (hlog : opts.apply_log = true → ∀ t, t < stft.length →
      ∀ f, f < numCols stft / 2 + 1 →
        epsilonF ≤ ((spectrogramPre opts stft).getD t []).getD f 0) :
    Polar opts (ComputeSpectrogram opts stft) (ComputePhaseAngle stft) = stft := by
  have hne : 0 < stft.length := by
    cases stft with
    | nil => simp [numCols] at hW2
    | cons a l => simp
  have hnumCS : numCols (ComputeSpectrogram opts stft) = numCols stft / 2 + 1 := by
    rw [numCols_eq_getD, ComputeSpectrogram_row_length opts stft hne]
  apply matrix_eq_of_getD
  · rw [Polar_length, ComputeSpectrogram_length]
  · intro t htP
    have ht : t < stft.length := by
      rwa [Polar_length, ComputeSpectrogram_length] at htP
    have htCS : t < (ComputeSpectrogram opts stft).length := by
      rw [ComputeSpectrogram_length]
      exact ht
    have hmem : stft.getD t [] ∈ stft := by
      rw [← getElem_eq_getD [] ht]
      exact List.getElem_mem ht
    have hrowW : (stft.getD t []).length = numCols stft := hrows _ hmem
    apply list_eq_of_getD
    · rw [Polar_row_length opts _ _ htCS, hnumCS, hrowW]
      omega
    · intro s hsP
      have hsW : s < numCols stft := by
        rw [Polar_row_length opts _ _ htCS, hnumCS] at hsP
        omega
      rw [Polar_getD opts _ _ htCS (by rw [hnumCS]; omega)]
      by_cases hs0 : s = 0
      · rw [if_pos hs0]
        rw [polar_mag_recovery opts stft ht (f := 0) (by omega)
          (fun hl => hlog hl t ht 0 (by omega))]
        rw [spectrogramRaw_getD stft ht (by omega)]
        rw [if_neg (by omega), if_pos rfl, hs0]
        exact Real.sqrt_sq (hb0 _ hmem)
      · rw [if_neg hs0]
        by_cases hs1 : s = 1
        · rw [if_pos hs1, hnumCS]
          have hfny : numCols stft / 2 + 1 - 1 = numCols stft / 2 := by omega
          rw [hfny]
          rw [polar_mag_recovery opts stft ht (f := numCols stft / 2) (by omega)
            (fun hl => hlog hl t ht _ (by omega))]
          rw [spectrogramRaw_getD stft ht (by omega)]
          rw [if_pos (by omega)]
          rw [Real.sqrt_sq_eq_abs, abs_of_nonpos (hb1 _ hmem), neg_neg, hs1]
        · have hs2 : 2 ≤ s := by omega
          rw [if_neg hs1]
          by_cases hpar : s % 2 = 0
          · rw [if_pos hpar]
            have hf1 : 1 ≤ s / 2 := by omega
            have hf2 : s / 2 < numCols stft / 2 := by omega
            rw [polar_mag_recovery opts stft ht (f := s / 2) (by omega)
              (fun hl => hlog hl t ht _ (by omega))]
            rw [spectrogramRaw_getD stft ht (by omega)]
            rw [if_neg (by omega), if_neg (by omega)]
            rw [ComputePhaseAngle_getD stft ht (by omega)]
            rw [if_neg (by omega), if_neg (by omega)]
            rw [cos_atan2_mul]
            congr 1
            omega
          · rw [if_neg hpar]
            have hf1 : 1 ≤ s / 2 := by omega
            have hf2 : s / 2 < numCols stft / 2 := by omega
            rw [polar_mag_recovery opts stft ht (f := s / 2) (by omega)
              (fun hl => hlog hl t ht _ (by omega))]
            rw [spectrogramRaw_getD stft ht (by omega)]
            rw [if_neg (by omega), if_neg (by omega)]
            rw [ComputePhaseAngle_getD stft ht (by omega)]
            rw [if_neg (by omega), if_neg (by omega)]
            rw [sin_atan2_mul]
            congr 1
            omega

/-- Witness for C3 on the buffer `[[1, −1, 0, 2]]` (nonnegative bin 0,
nonpositive Nyquist): the polar round trip reconstructs it exactly. -/
theorem C3_witness :
    Polar rectOpts44 (ComputeSpectrogram rectOpts44 [[(1 : ℝ), -1, 0, 2]])
      (ComputePhaseAngle [[(1 : ℝ), -1, 0, 2]]) = [[(1 : ℝ), -1, 0, 2]] := by
  refine C3_polar_roundtrip rectOpts44 [[(1 : ℝ), -1, 0, 2]]
    (by norm_num [numCols]) (by norm_num [numCols]) ?_ ?_ ?_ ?_
  · intro r hr
    rw [List.mem_singleton] at hr
    subst hr
    rfl
  · intro r hr
    rw [List.mem_singleton] at hr
    subst hr
    norm_num [List.getD]
  · intro r hr
    rw [List.mem_singleton] at hr
    subst hr
    norm_num [List.getD]
  · intro hl
    exact absurd hl (by norm_num [rectOpts44])

/-! ### Non-overlapping rectangular reconstruction (claim C1) -/

theorem getD_replicate {a : ℝ} {n m : ℕ} (h : m < n) :
    (List.replicate n a).getD m 0 = a := by
  rw [List.getD_eq_getElem?_getD, List.getElem?_replicate, if_pos h]
  rfl

theorem getD_map_mul_left (l : List ℝ) (c : ℝ) (j : ℕ) :
    (l.map (fun x => c * x)).getD j 0 = c * l.getD j 0 := by
  rcases lt_or_le j l.length with h | h
  · exact getD_map_of_lt _ l 0 0 h
  · rw [List.getD_eq_getElem?_getD, List.getElem?_eq_none (by simpa using h),
      List.getD_eq_getElem?_getD, List.getElem?_eq_none (by simpa using h)]
    norm_num

theorem infNorm_nil : infNorm ([] : List ℝ) = 0 := rfl

/-- Two `frame_length`-long non-overlapping frame supports that share a
sample index coincide. -/
theorem frames_disjoint {L n i j : ℕ}
    (hi : i * L ≤ n ∧ n < i * L + L) (hj : j * L ≤ n ∧ n < j * L + L) : i = j := by
  rcases Nat.lt_trichotomy i j with h | h | h
  · exfalso
    have h2 : (i + 1) * L ≤ j * L := Nat.mul_le_mul_right L h
    rw [Nat.succ_mul] at h2
    have := hi.2
    have := hj.1
    omega
  · exact h
  · exfalso
    have h2 : (j + 1) * L ≤ i * L := Nat.mul_le_mul_right L h
    rw [Nat.succ_mul] at h2
    have := hj.2
    have := hi.1
    omega

theorem cond_div {L n : ℕ} (hL : 0 < L) :
    (n / L) * L ≤ n ∧ n < (n / L) * L + L := by
  refine ⟨Nat.div_mul_le_self n L, ?_⟩
  have h := Nat.mod_lt n hL
  have h2 := Nat.div_add_mod n L
  calc n = L * (n / L) + n % L := h2.symm
    _ < L * (n / L) + L := Nat.add_lt_add_left h _
    _ = (n / L) * L + L := by rw [Nat.mul_comm]

/-- The `normalize_input` / `enable_scale` preprocessing of a channel
with nonzero peak is multiplication by a single positive constant. -/
theorem scaledChannel_scale (opts : ShortTimeFTOptions) (w : List ℝ)
    (hnz : 0 < infNorm w) :
    ∃ c : ℝ, 0 < c ∧ scaledChannel opts w = w.map (fun x => x * c) := by
  have hM : (0 : ℝ) < int16_max := by norm_num [int16_max]
  unfold scaledChannel
  dsimp only
  by_cases hn : opts.normalize_input <;> by_cases hs : opts.enable_scale <;>
    simp only [hn, hs, if_true, if_false, Bool.false_eq_true, ite_true, ite_false]
  · refine ⟨(1 / int16_max) * (int16_max / infNorm (w.map (fun x => x * (1 / int16_max)))),
      ?_, ?_⟩
    · have hpos : 0 < infNorm (w.map (fun x => x * (1 / int16_max))) := by
        rw [infNorm_map_mul, abs_of_pos (by positivity)]
        positivity
      positivity
    · rw [List.map_map]
      exact List.map_congr_left (fun a _ => by simp [Function.comp]; ring)
  · exact ⟨1 / int16_max, by positivity, rfl⟩
  · refine ⟨int16_max / infNorm w, by positivity, rfl⟩
  · refine ⟨1, one_pos, ?_⟩
    have : (fun x : ℝ => x * 1) = id := funext (fun x => mul_one x)
    rw [this, List.map_id]

/-- With a rectangular window, `frame_shift = frame_length`, and a frame
fully inside the channel, an STFT row is the packed real FFT of the
zero-padded `frame_length`-long slice at offset `i · frame_length`. -/
theorem frameRow_rect (opts : ShortTimeFTOptions) (ch : List ℝ) (i : ℕ)
    (hshift : opts.frame_shift = opts.frame_length)
    (hiend : i * opts.frame_length + opts.frame_length ≤ ch.length) :
    frameRow opts (List.replicate opts.frame_length 1) ch i =
      srfftForward ((List.range (PaddingLength opts)).map
        (fun j => if j < opts.frame_length
                  then ch.getD (i * opts.frame_length + j) 0 else 0)) := by
  unfold frameRow
  dsimp only
  rw [show srfftCompute true = srfftForward from rfl]
  congr 1
  rw [hshift]
  have hmin : min (i * opts.frame_length + opts.frame_length) ch.length =
      i * opts.frame_length + opts.frame_length := Nat.min_eq_left hiend
  rw [hmin]
  refine List.map_congr_left (fun j hj => ?_)
  rw [List.mem_range] at hj
  by_cases hjL : j < opts.frame_length
  · rw [if_pos hjL, if_pos hjL,
      getD_map_range (fun j => if i * opts.frame_length + j <
        i * opts.frame_length + opts.frame_length
        then ch.getD (i * opts.frame_length + j) 0 else 0) hj,
      if_pos (by omega), getD_replicate hjL, mul_one]
  · rw [if_neg hjL, if_neg hjL,
      getD_map_range (fun j => if i * opts.frame_length + j <
        i * opts.frame_length + opts.frame_length
        then ch.getD (i * opts.frame_length + j) 0 else 0) hj,
      if_neg (by omega)]

/-- `ShortTimeFT`'s row block for a single-channel wave. -/
theorem shortTimeFTCore_single (opts : ShortTimeFTOptions) (window : List ℝ)
    (w : List ℝ) :
    shortTimeFTCore opts window [w] =
      (List.range (NumFrames opts w.length)).map
        (fun i => frameRow opts window (scaledChannel opts w) i) := by
  unfold shortTimeFTCore
  dsimp only
  rw [show List.range ([w].length) = [0] from rfl, List.flatMap_cons,
    List.flatMap_nil, List.append_nil]
  rfl

/-- Rescaling a positively scaled copy of `w` is again a positively
scaled copy of `w`, whatever the `range` argument. -/
theorem rescale_scaled (w : List ℝ) (β range : ℝ) (hβ : 0 < β)
    (hw : 0 < infNorm w) :
    ∃ α : ℝ, 0 < α ∧
      rescale (w.map (fun x => x * β)) range = w.map (fun x => x * α) := by
  have hnorm : infNorm (w.map (fun x => x * β)) = infNorm w * β := by
    rw [infNorm_map_mul, abs_of_pos hβ]
  rcases lt_trichotomy range 0 with hr | hr | hr
  · exact ⟨β, hβ, rescale_of_neg _ hr⟩
  · subst hr
    refine ⟨β * (int16_max / (infNorm w * β)), ?_, ?_⟩
    · have hM : (0 : ℝ) < int16_max := by norm_num [int16_max]
      positivity
    · rw [rescale_of_zero, hnorm, List.map_map]
      exact List.map_congr_left (fun a _ => by simp [Function.comp]; ring)
  · refine ⟨β * (range / (infNorm w * β)), by positivity, ?_⟩
    rw [rescale_of_pos _ hr, hnorm, List.map_map]
    exact List.map_congr_left (fun a _ => by simp [Function.comp]; ring)

/-- C1 (amended): for a one-channel waveform with a nonzero sample whose
length is a positive multiple of `frame_length`, with the cached
rectangular window and `frame_shift = frame_length`, the inverse
transform of the forward transform is the waveform multiplied by one
global positive scale factor (whose value depends on the `range`
rescaling argument); if `frame_length` does not divide the length, the
trailing partial frame is dropped and the round trip returns a shorter
waveform. -/
theorem C1_reconstruction (opts : ShortTimeFTOptions) (w win : List ℝ) (range : ℝ)
    (hwin : CacheWindow opts = some win)
    (hrect : opts.window = "rectangular")
    (hshift : opts.frame_shift = opts.frame_length)
    (hL : 2 ≤ opts.frame_length)
    (hdvd : opts.frame_length ∣ w.length)
    (hnz : 0 < infNorm w) :
    ∃ α : ℝ, 0 < α ∧
      Option.map (fun s => InverseShortTimeFT opts win s range)
        (ShortTimeFT opts win [w]) =
      some [w.map (fun x => α * x)] := by
  have hwin1 : win = List.replicate opts.frame_length 1 := by
    rw [CacheWindow_rect opts hrect] at hwin
    exact (Option.some.inj hwin).symm
  subst hwin1
  have hLpos : 0 < opts.frame_length := by omega
  have hwpos : 0 < w.length := by
    rcases Nat.eq_zero_or_pos w.length with h0 | h
    · rw [List.length_eq_zero.mp h0, infNorm_nil] at hnz
      exact absurd hnz (lt_irrefl 0)
    · exact h
  obtain ⟨q, hq⟩ := hdvd
  have hqpos : 0 < q := by
    rcases Nat.eq_zero_or_pos q with h0 | h
    · rw [h0, Nat.mul_zero] at hq
      omega
    · exact h
  obtain ⟨q', rfl⟩ : ∃ q', q = q' + 1 := ⟨q - 1, by omega⟩
  have hF : NumFrames opts w.length = q' + 1 := by
    unfold NumFrames
    rw [hshift, hq, Nat.mul_succ, Nat.add_sub_cancel,
      Nat.mul_div_cancel_left q' hLpos]
  have hN : NumSamples opts (q' + 1) = w.length := by
    unfold NumSamples
    rw [hshift, hq, Nat.add_sub_cancel]
    ring
  obtain ⟨c, hc, hch⟩ := scaledChannel_scale opts w hnz
  have hstft : ShortTimeFT opts (List.replicate opts.frame_length 1) [w] =
      some (shortTimeFTCore opts (List.replicate opts.frame_length 1) [w]) := by
    unfold ShortTimeFT
    rw [if_pos (List.length_replicate _ _)]
  have hcore : shortTimeFTCore opts (List.replicate opts.frame_length 1) [w] =
      (List.range (q' + 1)).map
        (fun i => frameRow opts (List.replicate opts.frame_length 1)
          (w.map (fun x => x * c)) i) := by
    rw [shortTimeFTCore_single, hF, hch]
  have hPpos : 0 < PaddingLength opts := pow_pos (by norm_num) _
  have hLle : opts.frame_length ≤ PaddingLength opts := le_PaddingLength opts
  have hLcast : (0 : ℝ) < (opts.frame_length : ℝ) := by
    exact_mod_cast hLpos
  have hβ : (0 : ℝ) <
      (PaddingLength opts : ℝ) * c * (1 / (opts.frame_length : ℝ)) := by
    apply mul_pos (mul_pos _ hc) (one_div_pos.mpr hLcast)
    exact_mod_cast hPpos
  have hacc : olaAccum opts (List.replicate opts.frame_length 1)
      ((List.range (q' + 1)).map
        (fun i => frameRow opts (List.replicate opts.frame_length 1)
          (w.map (fun x => x * c)) i)) =
      w.map (fun x =>
        x * ((PaddingLength opts : ℝ) * c * (1 / (opts.frame_length : ℝ)))) := by
    apply list_eq_of_getD
    · rw [length_olaAccum, List.length_map, List.length_range, hN, List.length_map]
    · intro n hn
      have hnS : n < w.length := by
        rwa [length_olaAccum, List.length_map, List.length_range, hN] at hn
      rw [olaAccum_getD opts _ _
        (by rw [List.length_map, List.length_range, hN]; exact hnS)]
      rw [List.length_map, List.length_range, hshift]
      set i0 := n / opts.frame_length with hi0def
      have hcond := cond_div (n := n) hLpos
      rw [← hi0def] at hcond
      have hi0q : i0 < q' + 1 := by
        rw [hi0def]
        refine (Nat.div_lt_iff_lt_mul hLpos).mpr ?_
        rw [← Nat.mul_comm, ← hq]
        exact hnS
      rw [Finset.sum_eq_single i0 ?_ ?_]
      · rw [if_pos hcond]
        have hj : n - i0 * opts.frame_length < opts.frame_length := by
          omega
        rw [istftFrame_getD opts _ _ hj]
        rw [getD_map_of_lt _ (List.range (q' + 1)) 0 []
          (by rw [List.length_range]; exact hi0q), getD_range hi0q]
        have hiend : i0 * opts.frame_length + opts.frame_length ≤
            (w.map (fun x => x * c)).length := by
          rw [List.length_map, hq]
          have h1 : i0 + 1 ≤ q' + 1 := hi0q
          calc i0 * opts.frame_length + opts.frame_length
              = (i0 + 1) * opts.frame_length := (Nat.succ_mul _ _).symm
            _ ≤ (q' + 1) * opts.frame_length := Nat.mul_le_mul_right _ h1
            _ = opts.frame_length * (q' + 1) := Nat.mul_comm _ _
        rw [frameRow_rect opts _ i0 hshift hiend]
        rw [show srfftCompute false (srfftForward ((List.range (PaddingLength opts)).map
          (fun j => if j < opts.frame_length
            then (w.map (fun x => x * c)).getD (i0 * opts.frame_length + j) 0 else 0))) =
          srfftInverse (srfftForward ((List.range (PaddingLength opts)).map
          (fun j => if j < opts.frame_length
            then (w.map (fun x => x * c)).getD (i0 * opts.frame_length + j) 0 else 0)))
          from rfl]
        rw [srfft_roundtrip (by
          rw [List.length_map, List.length_range]
          exact PaddingLength_even opts hL)]
        rw [List.length_map, List.length_range]
        rw [getD_map_mul_left]
        rw [getD_map_range _ (show n - i0 * opts.frame_length < PaddingLength opts by
          omega)]
        rw [if_pos hj, getD_map_mul w c, Nat.add_sub_cancel' hcond.1,
          getD_replicate hj, getD_map_mul w _ n]
        ring
      · intro b _ hbne
        rw [if_neg (fun hcondb => hbne (frames_disjoint hcondb hcond))]
      · intro habs
        exact absurd (Finset.mem_range.mpr hi0q) habs
  obtain ⟨α, hα, hres⟩ := rescale_scaled w
    ((PaddingLength opts : ℝ) * c * (1 / (opts.frame_length : ℝ))) range hβ hnz
  refine ⟨α, hα, ?_⟩
  rw [hstft, Option.map_some']
  rw [show InverseShortTimeFT opts (List.replicate opts.frame_length 1)
    (shortTimeFTCore opts (List.replicate opts.frame_length 1) [w]) range =
    [rescale (olaAccum opts (List.replicate opts.frame_length 1)
      (shortTimeFTCore opts (List.replicate opts.frame_length 1) [w])) range]
    from rfl]
  rw [hcore, hacc, hres]
  congr 1
  congr 1
  exact List.map_congr_left (fun a _ => mul_comm a α)

/-- C1 counterexample to the claim as stated: the 6-sample waveform
`[1,1,1,1,1,1]` has at least `frame_length = 4` samples, but with
`frame_shift = frame_length = 4` only one full frame is taken, so the
round trip returns 4 samples and no positive scale factor can make it
equal to the 6-sample input. -/
theorem C1_counterexample :
    ¬ ∃ α : ℝ, 0 < α ∧
      Option.map (fun s => InverseShortTimeFT rectOpts44 (List.replicate 4 1) s (-1))
        (ShortTimeFT rectOpts44 (List.replicate 4 1) [[(1 : ℝ), 1, 1, 1, 1, 1]]) =
      some [[(1 : ℝ), 1, 1, 1, 1, 1].map (fun x => α * x)] := by
  rintro ⟨α, hα, heq⟩
  rw [show ShortTimeFT rectOpts44 (List.replicate 4 1) [[(1 : ℝ), 1, 1, 1, 1, 1]] =
      some (shortTimeFTCore rectOpts44 (List.replicate 4 1)
        [[(1 : ℝ), 1, 1, 1, 1, 1]]) from by
    unfold ShortTimeFT
    rw [if_pos (show (List.replicate 4 (1 : ℝ)).length = rectOpts44.frame_length by
      rw [List.length_replicate]; rfl)]] at heq
  rw [Option.map_some'] at heq
  have h2 := congrArg (fun m : List (List ℝ) => (m.getD 0 []).length)
    (Option.some.inj heq)
  simp only at h2
  rw [show (InverseShortTimeFT rectOpts44 (List.replicate 4 1)
      (shortTimeFTCore rectOpts44 (List.replicate 4 1) [[(1 : ℝ), 1, 1, 1, 1, 1]])
      (-1)).getD 0 [] =
    rescale (olaAccum rectOpts44 (List.replicate 4 1)
      (shortTimeFTCore rectOpts44 (List.replicate 4 1) [[(1 : ℝ), 1, 1, 1, 1, 1]]))
      (-1) from rfl] at h2
  rw [length_rescale, length_olaAccum, shortTimeFTCore_single,
    List.length_map, List.length_range] at h2
  norm_num [NumSamples, NumFrames, rectOpts44, List.getD] at h2

/-- Witness for C1 at the 4-sample waveform `[1,0,0,0]` (a single full
frame) with `range = −1` (no rescaling). -/
theorem C1_witness :
    0 < infNorm [(1 : ℝ), 0, 0, 0] ∧
    ∃ α : ℝ, 0 < α ∧
      Option.map (fun s => InverseShortTimeFT rectOpts44 (List.replicate 4 1) s (-1))
        (ShortTimeFT rectOpts44 (List.replicate 4 1) [[(1 : ℝ), 0, 0, 0]]) =
      some [[(1 : ℝ), 0, 0, 0].map (fun x => α * x)] := by
  have hnz : 0 < infNorm [(1 : ℝ), 0, 0, 0] := by
    have hb := abs_getD_le_infNorm (l := [(1 : ℝ), 0, 0, 0]) (n := 0) (by norm_num)
    rw [show ([(1 : ℝ), 0, 0, 0].getD 0 0) = 1 from rfl, abs_one] at hb
    linarith
  refine ⟨hnz, ?_⟩
  exact C1_reconstruction rectOpts44 [(1 : ℝ), 0, 0, 0] (List.replicate 4 1) (-1)
    (CacheWindow_rect rectOpts44 rfl) rfl rfl (by decide) (by decide) hnz

end KaldiEnhan
